import Mathlib

/-!
# Verification of the distributed sparse matrix-vector product in vexcl/spmat.hpp

This file gives a shallow embedding of the SpMV core of `vexcl/spmat.hpp`:

* the ghost-set construction and exchange plan of `SpMat::setup_exchange`;
* the local/remote column renumbering of the `SpMatCSR` constructor;
* the `spmv_set` / `spmv_add` kernels and `SpMatCSR::mul_local` / `mul_remote`;
* the per-multiply driver `SpMat::mul` (gather, redistribution, local and
  remote passes).

The C++ arrays `row`, `col`, `val` are embedded as functions `Nat → Nat` /
`Nat → ℚ` (they are raw pointers in the source; all accesses are through
explicit index ranges).  Device buffers holding per-device results are
embedded as lists.  `real` values are embedded as rationals: the claims are
about the summation structure, not rounding.  An `std::set` is embedded as a
sorted duplicate-free list maintained by ordered insertion, which is the
container's own representation and iteration order.
-/

namespace VexSp

/-- Ordered insertion into a sorted duplicate-free list:
the effect of `std::set::insert` on the container's (sorted) element list. -/
def insSorted (c : Nat) : List Nat → List Nat
  | [] => [c]
  | a :: rest =>
      if c < a then c :: a :: rest
      else if c = a then a :: rest
      else a :: insSorted c rest

/-- Inserting every element of `cs` (in order) into the sorted list `l`:
the effect of a loop of `std::set::insert` calls, or of the range insert
`insert(first, last)`. -/
def setIns (l : List Nat) (cs : List Nat) : List Nat :=
  cs.foldl (fun a c => insSorted c a) l

/-- The column indices scanned by the ghost-set loop of `setup_exchange` for
device `d`: for each row `i` in `[part d, part (d+1))` and each position
`j` in `[row i, row (i+1))`, the value `col j` whenever it lies outside
the device's column partition `[xpart d, xpart (d+1))`. -/
def scanCols (part xpart : Nat → Nat) (row col : Nat → Nat) (d : Nat) : List Nat :=
  (List.range' (part d) (part (d+1) - part d)).flatMap (fun i =>
    ((List.range' (row i) (row (i+1) - row i)).filter
      (fun j => decide (col j < xpart d ∨ xpart (d+1) ≤ col j))).map col)

/-- `remote_cols[d]` as built by `SpMat::setup_exchange`: the `std::set` of
ghost columns of device `d` (its sorted element list).  `setup_exchange`
returns with all sets empty when there is at most one device. -/
def ghostList (D : Nat) (part xpart : Nat → Nat) (row col : Nat → Nat) (d : Nat) : List Nat :=
  if D ≤ 1 then [] else setIns [] (scanCols part xpart row col d)

/-- `cols_to_send` as built by `SpMat::setup_exchange` (before the per-device
rebase): the sorted deduplicated union of all devices' ghost sets. -/
def sendListOf (D : Nat) (part xpart : Nat → Nat) (row col : Nat → Nat) : List Nat :=
  (List.range D).foldl (fun a d => setIns a (ghostList D part xpart row col d)) []

/-- `std::lower_bound` on a sorted list: index of the first element that is
not less than `v`, or the length when all elements are less. -/
def lowerBound (l : List Nat) (v : Nat) : Nat :=
  l.findIdx (fun c => decide (v ≤ c))

/-- The `cidx` array of `SpMat::setup_exchange`: `cidx[d]` is computed by a
`lower_bound` for `xpart[d]` over the not-yet-assigned tail of
`cols_to_send` (the search start `beg` advances to the previous result). -/
def cidx (l : List Nat) (xp : Nat → Nat) : Nat → Nat
  | 0 => lowerBound l (xp 0)
  | d + 1 => cidx l xp d + lowerBound (l.drop (cidx l xp d)) (xp (d + 1))

/-- Device `d`'s slice of `cols_to_send` after the rebase loop
`cols_to_send[i] -= xpart[d]` for `i ∈ [cidx d, cidx (d+1))`: the contents
of the device buffer `exc[d].cols_to_send`. -/
def colsToSend (l : List Nat) (xp : Nat → Nat) (d : Nat) : List Nat :=
  ((l.drop (cidx l xp d)).take (cidx l xp (d + 1) - cidx l xp d)).map (fun c => c - xp d)

/-- The loop of `setup_exchange` filling `exc[d].cols_to_recv`:
`for (i = 0, j = 0; i < cols_to_send.size(); i++)
   if (remote_cols[d].count(cols_to_send[i])) cols_to_recv[j++] = i;`
`i` is the running index (second argument), membership is tested in the
ghost set `g`. -/
def colsToRecvAux (g : List Nat) : List Nat → Nat → List Nat
  | [], _ => []
  | c :: rest, i =>
      if c ∈ g then i :: colsToRecvAux g rest (i + 1)
      else colsToRecvAux g rest (i + 1)

/-- Nonzero entries of row `i` of the global CSR input, as (column, value)
pairs, in storage order: positions `j ∈ [row i, row (i+1))`. -/
def rowEntries (row col : Nat → Nat) (val : Nat → ℚ) (i : Nat) : List (Nat × ℚ) :=
  (List.range' (row i) (row (i + 1) - row i)).map (fun j => (col j, val j))

/-- The dense reference SpMV row sum: `sum_j val[j] * x[col[j]]` over the
nonzeros of row `i`. -/
def refRowSum (row col : Nat → Nat) (val : Nat → ℚ) (x : Nat → ℚ) (i : Nat) : ℚ :=
  ((List.range' (row i) (row (i + 1) - row i)).map (fun j => val j * x (col j))).sum

/-- The entries of row `i` that the `SpMatCSR` constructor's renumbering pass
appends to the local block (`lcol`/`lval`): columns in `[xbeg, xend)`,
renumbered to `col - xbeg`. -/
def localPart (xbeg xend : Nat) (row col : Nat → Nat) (val : Nat → ℚ) (i : Nat) :
    List (Nat × ℚ) :=
  ((rowEntries row col val i).filter (fun e => decide (xbeg ≤ e.1 ∧ e.1 < xend))).map
    (fun e => (e.1 - xbeg, e.2))

/-- The entries of row `i` that the renumbering pass appends to the remote
block (`rcol`/`rval`): columns outside `[xbeg, xend)`, renumbered through
the map `r2l` built from the sorted ghost set `g` in iteration order, i.e.
to the column's rank `g.indexOf c` in the sorted ghost set. -/
def remotePart (xbeg xend : Nat) (g : List Nat) (row col : Nat → Nat) (val : Nat → ℚ)
    (i : Nat) : List (Nat × ℚ) :=
  ((rowEntries row col val i).filter (fun e => !decide (xbeg ≤ e.1 ∧ e.1 < xend))).map
    (fun e => (g.indexOf e.1, e.2))

/-- The flat `col`/`val` arrays accumulated row by row over rows
`[beg, beg+k)` from the per-row entry list `f` (the `push_back` loops of the
renumbering pass build exactly this concatenation). -/
def packed (f : Nat → List (Nat × ℚ)) (beg k : Nat) : List (Nat × ℚ) :=
  (List.range' beg k).flatMap f

/-- The row-offset array accumulated by the renumbering pass
(`lrow`/`rrow`): offset `k` is the number of entries contributed by the
first `k` rows. -/
def packedOff (f : Nat → List (Nat × ℚ)) (beg k : Nat) : Nat :=
  (packed f beg k).length

/-- A per-device sparse block as stored by `SpMat::SpMatCSR`: the row count,
the `has_loc`/`has_rem` flags, and the `loc`/`rem` buffer contents.  The
parallel `col`/`val` buffers are embedded together as one entry function
`Nat → Nat × ℚ` (buffer reads outside the written range are modelled as the
default `(0, 0)`). -/
structure DevBlock where
  nd : Nat
  hasLoc : Bool
  hasRem : Bool
  locOff : Nat → Nat
  locEnt : Nat → Nat × ℚ
  remOff : Nat → Nat
  remEnt : Nat → Nat × ℚ

/-- The `SpMatCSR` constructor for the row strip `[beg, e)` and column
partition `[xbeg, xend)`.  Fast path (`beg == 0 && remote_cols.empty()`):
the global arrays are uploaded unmodified and `has_loc = (row[n] != 0)`.
Otherwise the renumbering pass splits each row into the local and the
remote block, and `has_loc = (lrow.back() != 0)`,
`has_rem = !remote_cols.empty()`. -/
def buildCSR (beg e xbeg xend : Nat) (row col : Nat → Nat) (val : Nat → ℚ)
    (remote : List Nat) : DevBlock :=
  if beg = 0 ∧ remote = [] then
    { nd := e - beg
      hasLoc := decide (row (e - beg) ≠ 0)
      hasRem := false
      locOff := row
      locEnt := fun j => (col j, val j)
      remOff := fun _ => 0
      remEnt := fun _ => (0, 0) }
  else
    { nd := e - beg
      hasLoc := decide (packedOff (localPart xbeg xend row col val) beg (e - beg) ≠ 0)
      hasRem := decide (remote ≠ [])
      locOff := packedOff (localPart xbeg xend row col val) beg
      locEnt := fun j => (packed (localPart xbeg xend row col val) beg (e - beg)).getD j (0, 0)
      remOff := packedOff (remotePart xbeg xend remote row col val) beg
      remEnt := fun j => (packed (remotePart xbeg xend remote row col val) beg (e - beg)).getD j (0, 0) }

/-- The row sum computed by the `spmv_set`/`spmv_add` kernels for row `i` of a
block: `sum_{j ∈ [row i, row (i+1))} val[j] * x[col[j]]` over the block's
`row`/`col`/`val` buffers. -/
def kernelRowSum (off : Nat → Nat) (ent : Nat → Nat × ℚ) (x : Nat → ℚ) (i : Nat) : ℚ :=
  ((List.range' (off i) (off (i + 1) - off i)).map (fun j => (ent j).2 * x (ent j).1)).sum

/-- `SpMatCSR::mul_local`: with a nonempty local block, run `spmv_add`
(`y[i] += alpha * sum`) when `append` and `spmv_set` (`y[i] = alpha * sum`)
otherwise, over rows `i < n`; with an empty local block, zero the whole of
`y` when `!append` and do nothing when `append`. -/
def mulLocal (B : DevBlock) (x : Nat → ℚ) (y : List ℚ) (alpha : ℚ) (app : Bool) : List ℚ :=
  if B.hasLoc then
    (List.range B.nd).map (fun i =>
      if app then y.getD i 0 + alpha * kernelRowSum B.locOff B.locEnt x i
      else alpha * kernelRowSum B.locOff B.locEnt x i)
  else if app then y
  else List.replicate y.length 0

/-- `SpMatCSR::mul_remote`: nothing at all when `has_rem` is false; otherwise
enqueue `spmv_add` (`y[i] += alpha * sum`) over the remote block, passing the
supplied event list as the kernel's wait list.  The result pairs the new
contents of `y` with the wait list passed to `enqueueNDRangeKernel`
(`none` when no kernel was enqueued). -/
def mulRemote {ε : Type} (B : DevBlock) (x : Nat → ℚ) (y : List ℚ) (alpha : ℚ)
    (event : List ε) : List ℚ × Option (List ε) :=
  if B.hasRem then
    ((List.range B.nd).map (fun i => y.getD i 0 + alpha * kernelRowSum B.remOff B.remEnt x i),
      some event)
  else (y, none)

/-- The global inputs of one `SpMat` instance: matrix dimensions, the device
count, the row and column partitions (`part`, `xpart`), and the CSR arrays. -/
structure Inp where
  n : Nat
  m : Nat
  D : Nat
  part : Nat → Nat
  xpart : Nat → Nat
  row : Nat → Nat
  col : Nat → Nat
  val : Nat → ℚ

/-- Device `d`'s ghost set. -/
def Inp.ghost (I : Inp) (d : Nat) : List Nat :=
  ghostList I.D I.part I.xpart I.row I.col d

/-- The global send list (`cols_to_send` before the rebase). -/
def Inp.sendList (I : Inp) : List Nat :=
  sendListOf I.D I.part I.xpart I.row I.col

/-- `exc[d].cols_to_recv`. -/
def Inp.colsToRecv (I : Inp) (d : Nat) : List Nat :=
  colsToRecvAux (I.ghost d) I.sendList 0

/-- Device `d`'s sparse block, as constructed by the `SpMat` constructor:
`SpMatCSR(queue[d], part[d], part[d+1], xpart[d], xpart[d+1], row, col, val,
remote_cols[d])`. -/
def Inp.block (I : Inp) (d : Nat) : DevBlock :=
  buildCSR (I.part d) (I.part (d + 1)) (I.xpart d) (I.xpart (d + 1)) I.row I.col I.val
    (I.ghost d)

/-- Device `d`'s view of the distributed input vector: `x(d)` is the local
slice starting at global index `xpart d`. -/
def Inp.xSlice (I : Inp) (x : Nat → ℚ) (d : Nat) : Nat → ℚ :=
  fun k => x (I.xpart d + k)

/-- The host staging vector `rx` after all gather transfers of one `mul` call:
device `d` runs `gather_vals_to_send` (`vals_to_send[i] =
vals[cols_to_send[i]]` over its slice of `x`) and the result is read back
into `rx` at offset `cidx[d]`. -/
def Inp.rx (I : Inp) (x : Nat → ℚ) : List ℚ :=
  (List.range I.D).flatMap (fun d =>
    (colsToSend I.sendList I.xpart d).map (fun c => I.xSlice x d c))

/-- `exc[d].vals_to_recv` after the redistribution loop of `SpMat::mul`:
`vals_to_recv[j] = rx[cols_to_recv[j]]`. -/
def Inp.valsToRecv (I : Inp) (x : Nat → ℚ) (d : Nat) : List ℚ :=
  (I.colsToRecv d).map (fun i => (I.rx x).getD i 0)

/-- One `SpMat::mul` call, observed on device `d`'s slice of the output
vector (`y0` is that slice's prior contents).  The local pass runs only when
`mtx[d]` was constructed (`part[d+1] > part[d]`); the remote pass runs only
when `rx` is nonempty and `exc[d].cols_to_recv` is nonempty, and adds the
remote block's contribution read from the uploaded `exc[d].rx` buffer
(which holds `vals_to_recv`).  Both kernels run in order on device `d`'s
main queue. -/
def Inp.localPass (I : Inp) (x : Nat → ℚ) (y0 : List ℚ) (alpha : ℚ) (app : Bool)
    (d : Nat) : List ℚ :=
  if I.part d < I.part (d + 1) then mulLocal (I.block d) (I.xSlice x d) y0 alpha app
  else y0

def Inp.deviceMul (I : Inp) (x : Nat → ℚ) (y0 : List ℚ) (alpha : ℚ) (app : Bool)
    (d : Nat) : List ℚ :=
  if I.sendList.length ≠ 0 ∧ (I.colsToRecv d).length ≠ 0 then
    (mulRemote (I.block d) (fun k => (I.valsToRecv x d).getD k 0)
      (I.localPass x y0 alpha app d) alpha ([] : List Unit)).1
  else I.localPass x y0 alpha app d

/-- Well-formed CSR input: monotone row offsets and in-range column indices
(`col[j] < m` for every position `j` of the column array, whose length is
`row[n]`). -/
def csrWF (I : Inp) : Prop :=
  (∀ i < I.n, I.row i ≤ I.row (i + 1)) ∧ (∀ j < I.row I.n, I.col j < I.m)

/-- Modelled from the spec: the Partitioner (`partition`, §4.1) is not part of
the supplied sources; its contract says it splits `[0, N)` into `D`
contiguous chunks with monotone boundaries `p 0 = 0`, `p D = N`, possibly
empty.  Claims quantify over any boundary vector satisfying this contract. -/
def partOK (p : Nat → Nat) (D N : Nat) : Prop :=
  p 0 = 0 ∧ p D = N ∧ ∀ d < D, p d ≤ p (d + 1)

/-- Both partitions of an input are valid partitioner outputs. -/
def Inp.partsOK (I : Inp) : Prop :=
  partOK I.part I.D I.n ∧ partOK I.xpart I.D I.m

/-- The consistency condition the no-renumber fast path of `SpMatCSR` needs:
any device that is constructed (`part d < part (d+1)`) with `beg = 0` and an
empty ghost set must also have its column partition starting at 0, because
the fast path keeps global column indices while `mul` feeds it the local
slice `x(d)` of the input vector. -/
def fastOK (I : Inp) : Prop :=
  ∀ d < I.D, I.part d = 0 → I.part d < I.part (d + 1) → I.ghost d = [] → I.xpart d = 0

/-- Sum of `val * x[col]` over a list of (column, value) entries. -/
def entSum (l : List (Nat × ℚ)) (x : Nat → ℚ) : ℚ :=
  (l.map (fun e => e.2 * x e.1)).sum

/-- The `assert(r2l.count(col[j]))` of the renumbering pass: for every row
`i` of the strip and every nonzero position `j`, either the column is local
(`xbeg <= col[j] && col[j] < xend`, the `if` branch taken before the assert
is reached) or the assert's condition holds: `col[j]` is a key of `r2l`,
i.e. a member of `remote_cols`.  The whole pass passes its assertion checks
iff this evaluates to `true`. -/
def assertOK (beg e xbeg xend : Nat) (row col : Nat → Nat) (remote : List Nat) : Bool :=
  (List.range' beg (e - beg)).all (fun i =>
    (List.range' (row i) (row (i + 1) - row i)).all (fun j =>
      decide (xbeg ≤ col j ∧ col j < xend) || decide (col j ∈ remote)))

/-- Concrete two-device instance used by witnesses: the 2×2 swap matrix
(row `i` has a single nonzero, value 1, at column `1 - i`), rows and columns
split evenly between the devices, so each row's only column is remote. -/
def swapInp : Inp := ⟨2, 2, 2, fun d => d, fun d => d, fun i => i, fun j => 1 - j, fun _ => 1⟩

/-- The same matrix handed to a single device (trivial partitions). -/
def swapOne : Inp :=
  ⟨2, 2, 1, fun d => 2 * min d 1, fun d => 2 * min d 1, fun i => i, fun j => 1 - j, fun _ => 1⟩

/-- Concrete input vector for witnesses. -/
def swapX : Nat → ℚ := fun k => (k : ℚ)

/-- Concrete counterexample instance: one row, two columns, two devices.
The row partition `[0, 0, 1]` and column partition `[0, 1, 2]` are valid
proportional-partitioner outputs (weights ≈ (0.3, 0.7) with rounding give
device 0 zero of the 1 row but one of the 2 columns).  Device 1 then has
`beg = 0`, an empty ghost set (its only column, 1, is inside its column
range `[1, 2)`), and a nonzero column base `xpart 1 = 1`: the no-renumber
fast path keeps the global column index 1, which `mul` then reads from the
device's local slice of `x` — one past its end. -/
def badInp : Inp := ⟨1, 2, 2, fun d => d / 2, fun d => d, fun i => min i 1, fun _ => 1, fun _ => 1⟩

/-- The same 1×2 matrix handed to a single device. -/
def oneInp : Inp :=
  ⟨1, 2, 1, fun d => min d 1, fun d => 2 * min d 1, fun i => min i 1, fun _ => 1, fun _ => 1⟩

/-- Malformed-CSR instance for the assertion claim: 2×2 matrix over two
devices whose first nonzero has column index 5, far outside `[0, 2)`. -/
def oobInp : Inp :=
  ⟨2, 2, 2, fun d => d, fun d => d, fun i => min i 2, fun j => if j = 0 then 5 else 0, fun _ => 1⟩

section SortedInsert

theorem mem_insSorted {b c : Nat} {l : List Nat} :
    b ∈ insSorted c l ↔ b = c ∨ b ∈ l := by
  induction l with
  | nil => simp [insSorted]
  | cons a rest ih =>
      by_cases h1 : c < a
      · simp [insSorted, h1]
      · by_cases h2 : c = a
        · subst h2
          rw [insSorted, if_neg h1, if_pos rfl]
          simp only [List.mem_cons]
          tauto
        · simp only [insSorted, if_neg h1, if_neg h2, List.mem_cons, ih]
          tauto

theorem sorted_insSorted {c : Nat} {l : List Nat} (h : l.Sorted (· < ·)) :
    (insSorted c l).Sorted (· < ·) := by
  induction l with
  | nil => simp [insSorted]
  | cons a rest ih =>
      rw [List.sorted_cons] at h
      by_cases h1 : c < a
      · rw [insSorted, if_pos h1, List.sorted_cons, List.sorted_cons]
        exact ⟨fun b hb => by rcases List.mem_cons.mp hb with rfl | hb
                              exacts [h1, lt_trans h1 (h.1 b hb)],
               h.1, h.2⟩
      · by_cases h2 : c = a
        · rw [insSorted, if_neg h1, if_pos h2, List.sorted_cons]
          exact h
        · have hac : a < c := by omega
          rw [insSorted, if_neg h1, if_neg h2, List.sorted_cons]
          refine ⟨fun b hb => ?_, ih h.2⟩
          rcases mem_insSorted.mp hb with rfl | hb
          exacts [hac, h.1 b hb]

theorem mem_setIns {b : Nat} {l cs : List Nat} :
    b ∈ setIns l cs ↔ b ∈ l ∨ b ∈ cs := by
  induction cs generalizing l with
  | nil => simp [setIns]
  | cons c rest ih =>
      show b ∈ setIns (insSorted c l) rest ↔ _
      rw [ih, mem_insSorted]
      simp only [List.mem_cons]
      tauto

theorem sorted_setIns {l cs : List Nat} (h : l.Sorted (· < ·)) :
    (setIns l cs).Sorted (· < ·) := by
  induction cs generalizing l with
  | nil => exact h
  | cons c rest ih => exact ih (sorted_insSorted h)

theorem ghost_sorted (D : Nat) (part xpart row col : Nat → Nat) (d : Nat) :
    (ghostList D part xpart row col d).Sorted (· < ·) := by
  unfold ghostList
  split
  · simp
  · exact sorted_setIns (by simp)

theorem mem_ghost {D : Nat} {part xpart row col : Nat → Nat} {d c : Nat} (hD : 2 ≤ D) :
    c ∈ ghostList D part xpart row col d ↔
      ∃ i, part d ≤ i ∧ i < part (d + 1) ∧
        ∃ j, row i ≤ j ∧ j < row (i + 1) ∧ col j = c ∧
          (c < xpart d ∨ xpart (d + 1) ≤ c) := by
  unfold ghostList
  rw [if_neg (by omega)]
  rw [mem_setIns]
  simp only [List.not_mem_nil, false_or]
  unfold scanCols
  simp only [List.mem_flatMap, List.mem_map, List.mem_filter, List.mem_range'_1]
  constructor
  · rintro ⟨i, ⟨hi1, hi2⟩, j, ⟨⟨hj1, hj2⟩, hout⟩, rfl⟩
    exact ⟨i, hi1, by omega, j, hj1, by omega, rfl, by simpa using hout⟩
  · rintro ⟨i, hi1, hi2, j, hj1, hj2, rfl, hout⟩
    exact ⟨i, ⟨hi1, by omega⟩, j, ⟨⟨hj1, by omega⟩, by simpa using hout⟩, rfl⟩

theorem sendList_sorted (D : Nat) (part xpart row col : Nat → Nat) :
    (sendListOf D part xpart row col).Sorted (· < ·) := by
  unfold sendListOf
  generalize hgen : (List.range D) = ds
  have : ∀ (ds : List Nat) (l : List Nat), l.Sorted (· < ·) →
      (ds.foldl (fun a d => setIns a (ghostList D part xpart row col d)) l).Sorted (· < ·) := by
    intro ds
    induction ds with
    | nil => intro l hl; exact hl
    | cons d rest ih => intro l hl; exact ih _ (sorted_setIns hl)
  exact this ds [] (by simp)

theorem mem_sendList {D : Nat} {part xpart row col : Nat → Nat} {c : Nat} :
    c ∈ sendListOf D part xpart row col ↔
      ∃ d < D, c ∈ ghostList D part xpart row col d := by
  unfold sendListOf
  have key : ∀ (ds : List Nat) (l : List Nat),
      c ∈ ds.foldl (fun a d => setIns a (ghostList D part xpart row col d)) l ↔
        c ∈ l ∨ ∃ d ∈ ds, c ∈ ghostList D part xpart row col d := by
    intro ds
    induction ds with
    | nil => intro l; simp
    | cons d rest ih =>
        intro l
        show c ∈ rest.foldl _ (setIns l _) ↔ _
        rw [ih, mem_setIns]
        simp only [List.mem_cons]
        constructor
        · rintro ((h | h) | ⟨d', hd', h⟩)
          exacts [Or.inl h, Or.inr ⟨d, Or.inl rfl, h⟩, Or.inr ⟨d', Or.inr hd', h⟩]
        · rintro (h | ⟨d', (rfl | hd'), h⟩)
          exacts [Or.inl (Or.inl h), Or.inl (Or.inr h), Or.inr ⟨d', hd', h⟩]
  rw [key]
  simp [List.mem_range]

theorem sendList_sortedLE (D : Nat) (part xpart row col : Nat → Nat) :
    (sendListOf D part xpart row col).Sorted (· ≤ ·) :=
  (sendList_sorted D part xpart row col).imp le_of_lt

theorem sendList_nodup (D : Nat) (part xpart row col : Nat → Nat) :
    (sendListOf D part xpart row col).Nodup :=
  (sendList_sorted D part xpart row col).imp ne_of_lt

theorem ghost_nodup (D : Nat) (part xpart row col : Nat → Nat) (d : Nat) :
    (ghostList D part xpart row col d).Nodup :=
  (ghost_sorted D part xpart row col d).imp ne_of_lt

end SortedInsert

section SortedIndex

/-- A boundary function that increases step by step is monotone over the range. -/
theorem chain_le {f : Nat → Nat} {N : Nat} (h : ∀ k < N, f k ≤ f (k + 1)) :
    ∀ a b, a ≤ b → b ≤ N → f a ≤ f b := by
  intro a b hab hbN
  induction b with
  | zero =>
      have : a = 0 := by omega
      subst this
      exact le_refl _
  | succ b ih =>
      rcases Nat.eq_or_lt_of_le hab with rfl | hlt
      · exact le_refl _
      · exact le_trans (ih (by omega) (by omega)) (h b (by omega))

/-- In a sorted list, the element at an index below `countP (· < v)` is `< v`. -/
theorem sorted_getD_lt {l : List Nat} {v i : Nat} (hs : l.Sorted (· ≤ ·))
    (hi : i < l.countP (fun c => decide (c < v))) : l.getD i 0 < v := by
  induction l generalizing i with
  | nil => simp at hi
  | cons a t ih =>
      rw [List.sorted_cons] at hs
      by_cases ha : a < v
      · rcases i with _ | k
        · simpa using ha
        · rw [List.countP_cons, if_pos (by simpa using ha)] at hi
          exact ih hs.2 (by omega)
      · have hz : t.countP (fun c => decide (c < v)) = 0 := by
          rw [List.countP_eq_zero]
          intro b hb
          simp only [decide_eq_true_eq]
          have := hs.1 b hb
          omega
        rw [List.countP_cons, if_neg (by simpa using ha)] at hi
        omega
/-- In a sorted list, the element at an index at or above `countP (· < v)` is `≥ v`. -/
theorem sorted_le_getD {l : List Nat} {v i : Nat} (hs : l.Sorted (· ≤ ·))
    (hi : l.countP (fun c => decide (c < v)) ≤ i) (hlen : i < l.length) :
    v ≤ l.getD i 0 := by
  induction l generalizing i with
  | nil => simp at hlen
  | cons a t ih =>
      rw [List.sorted_cons] at hs
      by_cases ha : a < v
      · rw [List.countP_cons, if_pos (by simpa using ha)] at hi
        rcases i with _ | k
        · omega
        · exact ih hs.2 (by omega) (by simpa using hlen)
      · rcases i with _ | k
        · simpa using by omega
        · have hz : t.countP (fun c => decide (c < v)) = 0 := by
            rw [List.countP_eq_zero]
            intro b hb
            simp only [decide_eq_true_eq]
            have := hs.1 b hb
            omega
          exact ih hs.2 (by omega) (by simpa using hlen)

/-- On a sorted list, `std::lower_bound` returns the number of elements `< v`. -/
theorem lowerBound_sorted {l : List Nat} {v : Nat} (hs : l.Sorted (· ≤ ·)) :
    lowerBound l v = l.countP (fun c => decide (c < v)) := by
  induction l with
  | nil => simp [lowerBound]
  | cons a t ih =>
      rw [List.sorted_cons] at hs
      unfold lowerBound at ih ⊢
      rw [List.findIdx_cons, List.countP_cons]
      by_cases ha : v ≤ a
      · have hz : t.countP (fun c => decide (c < v)) = 0 := by
          rw [List.countP_eq_zero]
          intro b hb
          simp only [decide_eq_true_eq]
          have := hs.1 b hb
          omega
        have hna : ¬a < v := by omega
        simp [ha, hz, hna]
      · rw [show (decide (v ≤ a)) = false from by simpa using ha]
        rw [cond_false, ih hs.2, if_pos (by simp only [decide_eq_true_eq]; omega)]

/-- The iteratively computed `cidx` equals a global lower bound: with a sorted
send list and monotone column-partition boundaries, `cidx d` is the number of
send-list entries `< xpart d`. -/
theorem cidx_eq_countP {l : List Nat} {xp : Nat → Nat} {d : Nat} (hs : l.Sorted (· ≤ ·))
    (hmono : ∀ e < d, xp e ≤ xp (e + 1)) :
    cidx l xp d = l.countP (fun c => decide (c < xp d)) := by
  induction d with
  | zero => exact lowerBound_sorted hs
  | succ d ih =>
      have hk := ih (fun e he => hmono e (by omega))
      have hkle : l.countP (fun c => decide (c < xp d)) ≤ l.length := l.countP_le_length _
      set k := l.countP (fun c => decide (c < xp d)) with hkdef
      have hdrop : (l.drop k).Sorted (· ≤ ·) := hs.sublist (List.drop_sublist k l)
      rw [cidx, hk, lowerBound_sorted hdrop]
      have hsplit := List.countP_append (fun c => decide (c < xp (d + 1))) (l.take k) (l.drop k)
      rw [List.take_append_drop] at hsplit
      have htake : (l.take k).countP (fun c => decide (c < xp (d + 1))) = k := by
        have hlen : (l.take k).length = k := by
          rw [List.length_take]
          omega
        have hall : ∀ b ∈ l.take k, (fun c => decide (c < xp (d + 1))) b = true := by
          intro b hb
          rcases List.mem_iff_getElem.mp hb with ⟨i, hilen, rfl⟩
          have hik : i < k := by
            rw [hlen] at hilen
            exact hilen
          have hil : i < l.length := by omega
          rw [List.getElem_take]
          have hlt : l.getD i 0 < xp d := sorted_getD_lt hs (by omega)
          rw [List.getD_eq_getElem l 0 hil] at hlt
          have hle := hmono d (by omega)
          simp only [decide_eq_true_eq]
          omega
        have := List.countP_eq_length.mpr hall
        omega
      omega

/-- `cidx 0 = 0` whenever `xpart 0 = 0`. -/
theorem cidx_zero {l : List Nat} {xp : Nat → Nat} (h0 : xp 0 = 0) : cidx l xp 0 = 0 := by
  rw [cidx, h0]
  unfold lowerBound
  cases l with
  | nil => simp
  | cons a t => rw [List.findIdx_cons]; simp

/-- `cidx` is bounded by the send-list length. -/
theorem cidx_le_length {l : List Nat} {xp : Nat → Nat} {d : Nat} (hs : l.Sorted (· ≤ ·))
    (hmono : ∀ e < d, xp e ≤ xp (e + 1)) : cidx l xp d ≤ l.length := by
  rw [cidx_eq_countP hs hmono]
  exact l.countP_le_length _

/-- `cidx` is monotone in the device index. -/
theorem cidx_mono {l : List Nat} {xp : Nat → Nat} {d : Nat} (hs : l.Sorted (· ≤ ·))
    (hmono : ∀ e < d + 1, xp e ≤ xp (e + 1)) : cidx l xp d ≤ cidx l xp (d + 1) := by
  rw [cidx_eq_countP hs (fun e he => hmono e (by omega)),
      cidx_eq_countP hs (fun e he => hmono e (by omega))]
  refine List.countP_mono_left ?_
  intro c hc
  simp only [decide_eq_true_eq]
  have := hmono d (by omega)
  omega

/-- When every send-list entry is below the last column boundary, `cidx D`
covers the whole list. -/
theorem cidx_top {l : List Nat} {xp : Nat → Nat} {D : Nat} (hs : l.Sorted (· ≤ ·))
    (hmono : ∀ e < D, xp e ≤ xp (e + 1)) (hlt : ∀ c ∈ l, c < xp D) :
    cidx l xp D = l.length := by
  rw [cidx_eq_countP hs hmono]
  rw [List.countP_eq_length]
  intro b hb
  simpa using hlt b hb

end SortedIndex

section RecvLemmas

theorem colsToRecvAux_succ (g : List Nat) :
    ∀ (l : List Nat) (k : Nat),
      colsToRecvAux g l (k + 1) = (colsToRecvAux g l k).map (· + 1) := by
  intro l
  induction l with
  | nil => intro k; rfl
  | cons c rest ih =>
      intro k
      by_cases hc : c ∈ g
      · simp only [colsToRecvAux, if_pos hc, List.map_cons, ih (k + 1), ih k]
      · simp only [colsToRecvAux, if_neg hc, ih (k + 1), ih k]

/-- Reading the send list back through `cols_to_recv` yields exactly the
send-list entries that belong to the ghost set, in order. -/
theorem recv_map_getD (g : List Nat) :
    ∀ l : List Nat,
      (colsToRecvAux g l 0).map (fun i => l.getD i 0) =
        l.filter (fun c => decide (c ∈ g)) := by
  intro l
  induction l with
  | nil => rfl
  | cons c rest ih =>
      by_cases hc : c ∈ g
      · simp only [colsToRecvAux, if_pos hc, colsToRecvAux_succ, List.filter_cons,
          decide_eq_true hc, List.map_cons, List.map_map, List.getD_cons_zero]
        refine congrArg (c :: ·) ?_
        rw [← ih]
        exact List.map_congr_left (fun i _ => rfl)
      · simp only [colsToRecvAux, if_neg hc, colsToRecvAux_succ, List.filter_cons,
          List.map_map]
        rw [show (decide (c ∈ g)) = false from by simpa using hc]
        simp only [Bool.false_eq_true, if_false]
        rw [← ih]
        exact List.map_congr_left (fun i _ => rfl)

theorem recv_lt_length (g : List Nat) :
    ∀ l : List Nat, ∀ i ∈ colsToRecvAux g l 0, i < l.length := by
  intro l
  induction l with
  | nil => intro i hi; simp [colsToRecvAux] at hi
  | cons c rest ih =>
      intro i hi
      by_cases hc : c ∈ g
      · rw [colsToRecvAux, if_pos hc, colsToRecvAux_succ] at hi
        rcases List.mem_cons.mp hi with rfl | hi
        · simp
        · rcases List.mem_map.mp hi with ⟨i', hi', rfl⟩
          have := ih i' hi'
          simp only [List.length_cons]
          omega
      · rw [colsToRecvAux, if_neg hc, colsToRecvAux_succ] at hi
        rcases List.mem_map.mp hi with ⟨i', hi', rfl⟩
        have := ih i' hi'
        simp only [List.length_cons]
        omega

theorem recv_length (g l : List Nat) :
    (colsToRecvAux g l 0).length = (l.filter (fun c => decide (c ∈ g))).length := by
  rw [← recv_map_getD g l, List.length_map]

end RecvLemmas

section PackedLemmas

theorem packedOff_zero (f : Nat → List (Nat × ℚ)) (beg : Nat) : packedOff f beg 0 = 0 := rfl

theorem packed_succ (f : Nat → List (Nat × ℚ)) (beg k : Nat) :
    packed f beg (k + 1) = packed f beg k ++ f (beg + k) := by
  unfold packed
  rw [show k + 1 = 1 + k from by omega, ← List.range'_append beg k 1 1]
  rw [List.flatMap_append]
  simp [List.range']

theorem packedOff_succ (f : Nat → List (Nat × ℚ)) (beg k : Nat) :
    packedOff f beg (k + 1) = packedOff f beg k + (f (beg + k)).length := by
  unfold packedOff
  rw [packed_succ, List.length_append]

theorem packed_split {f : Nat → List (Nat × ℚ)} {nd i : Nat} (beg : Nat) (h : i < nd) :
    packed f beg nd =
      packed f beg i ++ f (beg + i) ++ (List.range' (beg + i + 1) (nd - i - 1)).flatMap f := by
  obtain ⟨r, rfl⟩ : ∃ r, nd = i + 1 + r := ⟨nd - i - 1, by omega⟩
  simp only [show i + 1 + r - i - 1 = r from by omega]
  unfold packed
  rw [show i + 1 + r = (1 + r) + i from by omega, ← List.range'_append beg i (1 + r) 1]
  rw [List.flatMap_append, Nat.one_mul]
  rw [show 1 + r = r + 1 from by omega, List.range'_succ]
  simp [List.append_assoc]

theorem map_getD_mid {α : Type} (dflt : α) :
    ∀ (mid pre post : List α),
      (List.range' pre.length mid.length).map (fun j => (pre ++ mid ++ post).getD j dflt) =
        mid := by
  intro mid
  induction mid with
  | nil => intro pre post; simp
  | cons b bs ih =>
      intro pre post
      rw [List.length_cons, List.range'_succ, List.map_cons]
      have hhead : (pre ++ (b :: bs) ++ post).getD pre.length dflt = b := by
        rw [List.append_assoc, List.getD_append_right _ _ _ _ (le_refl _), Nat.sub_self]
        rfl
      rw [hhead]
      have hre : pre ++ (b :: bs) ++ post = (pre ++ [b]) ++ bs ++ post := by
        simp [List.append_assoc]
      have hlen : pre.length + 1 = (pre ++ [b]).length := by simp
      rw [hre, hlen, ih (pre ++ [b]) post]

/-- The `spmv` kernels applied to the packed block arrays compute, for each
row of the block, exactly the sum over that row's entry list. -/
theorem kernelRowSum_packed {f : Nat → List (Nat × ℚ)} {beg nd i : Nat} (h : i < nd)
    (x : Nat → ℚ) :
    kernelRowSum (packedOff f beg) (fun j => (packed f beg nd).getD j (0, 0)) x i =
      entSum (f (beg + i)) x := by
  unfold kernelRowSum entSum
  have hoff : packedOff f beg (i + 1) - packedOff f beg i = (f (beg + i)).length := by
    rw [packedOff_succ]
    omega
  have hpre : packedOff f beg i = (packed f beg i).length := rfl
  rw [hoff, hpre, packed_split beg h]
  have := map_getD_mid (0, 0) (f (beg + i)) (packed f beg i)
      ((List.range' (beg + i + 1) (nd - i - 1)).flatMap f)
  calc ((List.range' (packed f beg i).length (f (beg + i)).length).map
          (fun j => ((fun e : Nat × ℚ => e.2 * x e.1)
            ((packed f beg i ++ f (beg + i) ++
              (List.range' (beg + i + 1) (nd - i - 1)).flatMap f).getD j (0, 0))))).sum
      = (((List.range' (packed f beg i).length (f (beg + i)).length).map
          (fun j => (packed f beg i ++ f (beg + i) ++
              (List.range' (beg + i + 1) (nd - i - 1)).flatMap f).getD j (0, 0))).map
          (fun e : Nat × ℚ => e.2 * x e.1)).sum := by
        rw [List.map_map]
        rfl
    _ = ((f (beg + i)).map (fun e : Nat × ℚ => e.2 * x e.1)).sum := by rw [this]

end PackedLemmas

section RxLemmas

/-- Every index below the last boundary of a monotone boundary vector lies in
exactly one segment; this finds it. -/
theorem exists_seg {f : Nat → Nat} {D i : Nat} (h0 : f 0 = 0)
    (hm : ∀ e < D, f e ≤ f (e + 1)) (hi : i < f D) :
    ∃ d, d < D ∧ f d ≤ i ∧ i < f (d + 1) := by
  induction D with
  | zero => omega
  | succ D ih =>
      by_cases hiD : i < f D
      · obtain ⟨d, hd, h1, h2⟩ := ih (fun e he => hm e (by omega)) hiD
        exact ⟨d, by omega, h1, h2⟩
      · exact ⟨D, by omega, by omega, hi⟩

theorem flatMap_getD_seg {g : Nat → List ℚ} {off : Nat → Nat} {D d i : Nat}
    (hlen : ∀ e, e ≤ D → ((List.range e).flatMap g).length = off e)
    (hd : d < D) (h1 : off d ≤ i) (h2 : i < off (d + 1)) :
    ((List.range D).flatMap g).getD i 0 = (g d).getD (i - off d) 0 := by
  have hsplit : List.range D = List.range (d + 1) ++ List.range' (d + 1) (D - d - 1) := by
    obtain ⟨r, rfl⟩ : ∃ r, D = d + 1 + r := ⟨D - d - 1, by omega⟩
    simp only [show d + 1 + r - d - 1 = r from by omega]
    rw [List.range_eq_range', List.range_eq_range',
        show d + 1 + r = r + (d + 1) from by omega, ← List.range'_append 0 (d + 1) r 1]
    simp
  rw [hsplit, List.flatMap_append]
  rw [List.getD_append _ _ _ _ (by rw [hlen (d + 1) (by omega)]; omega)]
  have hsplit2 : List.range (d + 1) = List.range d ++ [d] := List.range_succ d
  rw [hsplit2, List.flatMap_append]
  rw [List.getD_append_right _ _ _ _ (by rw [hlen d (by omega)]; omega)]
  rw [hlen d (by omega)]
  simp

theorem length_colsToSend {l : List Nat} {xp : Nat → Nat} {d : Nat}
    (hs : l.Sorted (· ≤ ·)) (hmono : ∀ e < d + 1, xp e ≤ xp (e + 1)) :
    (colsToSend l xp d).length = cidx l xp (d + 1) - cidx l xp d := by
  unfold colsToSend
  rw [List.length_map, List.length_take, List.length_drop]
  have h1 := @cidx_le_length l xp (d + 1) hs hmono
  omega

theorem rx_seg_length (I : Inp) (x : Nat → ℚ)
    (hs : I.sendList.Sorted (· ≤ ·)) (hxp0 : I.xpart 0 = 0)
    (hmono : ∀ e < I.D, I.xpart e ≤ I.xpart (e + 1)) :
    ∀ e, e ≤ I.D →
      ((List.range e).flatMap (fun d =>
        (colsToSend I.sendList I.xpart d).map (fun c => I.xSlice x d c))).length =
      cidx I.sendList I.xpart e := by
  intro e he
  induction e with
  | zero => simp [cidx_zero hxp0]
  | succ e ih =>
      rw [List.range_succ, List.flatMap_append]
      rw [List.length_append, ih (by omega)]
      simp only [List.flatMap_cons, List.flatMap_nil, List.append_nil, List.length_map]
      rw [length_colsToSend hs (fun e' he' => hmono e' (by omega))]
      have := @cidx_mono I.sendList I.xpart e hs
        (fun e' he' => hmono e' (by omega))
      omega

/-- After all gather transfers, `rx[i]` holds the global input-vector value at
the `i`-th send-list column: device `d` gathers `x(d)[cols_to_send[k]]`
(rebased columns of its own partition) into `rx` at offset `cidx d`. -/
theorem rx_getD (I : Inp) (x : Nat → ℚ)
    (hxp0 : I.xpart 0 = 0) (hmono : ∀ e < I.D, I.xpart e ≤ I.xpart (e + 1))
    (hlt : ∀ c ∈ I.sendList, c < I.xpart I.D) :
    ∀ i < I.sendList.length, (I.rx x).getD i 0 = x (I.sendList.getD i 0) := by
  intro i hi
  have hs : I.sendList.Sorted (· ≤ ·) := sendList_sortedLE _ _ _ _ _
  have htop : cidx I.sendList I.xpart I.D = I.sendList.length := cidx_top hs hmono hlt
  have hzero : cidx I.sendList I.xpart 0 = 0 := cidx_zero hxp0
  obtain ⟨d, hd, h1, h2⟩ := @exists_seg (cidx I.sendList I.xpart) I.D i hzero
    (fun e he => cidx_mono hs (fun e' he' => hmono e' (by omega))) (by rw [htop]; exact hi)
  have hlen := rx_seg_length I x hs hxp0 hmono
  unfold Inp.rx
  rw [flatMap_getD_seg hlen hd h1 h2]
  have hlencs : (colsToSend I.sendList I.xpart d).length =
      cidx I.sendList I.xpart (d + 1) - cidx I.sendList I.xpart d :=
    length_colsToSend hs (fun e he => hmono e (by omega))
  set k := i - cidx I.sendList I.xpart d with hk
  have hklt : k < (colsToSend I.sendList I.xpart d).length := by omega
  rw [List.getD_eq_getElem _ _ (by
    rw [List.length_map]
    exact hklt)]
  rw [List.getElem_map, ← List.getD_eq_getElem _ _ hklt]
  have hcidx : cidx I.sendList I.xpart (d + 1) ≤ I.sendList.length :=
    cidx_le_length hs (fun e he => hmono e (by omega))
  have hival : (colsToSend I.sendList I.xpart d).getD k 0 =
      I.sendList.getD i 0 - I.xpart d := by
    rw [List.getD_eq_getElem _ _ hklt]
    unfold colsToSend
    rw [List.getElem_map, List.getElem_take, List.getElem_drop]
    rw [List.getD_eq_getElem _ _ (by omega)]
    congr 1
    congr 1
    omega
  rw [hival]
  have hge : I.xpart d ≤ I.sendList.getD i 0 := by
    apply sorted_le_getD hs _ (by omega)
    rw [← cidx_eq_countP hs (fun e he => hmono e (by omega))]
    exact h1
  unfold Inp.xSlice
  congr 1
  omega

end RxLemmas

section GhostBounds

theorem ghost_lt (I : Inp) (hwf : csrWF I) (hpOK : I.partsOK) {d c : Nat} (hd : d < I.D)
    (hc : c ∈ I.ghost d) : c < I.m := by
  by_cases hD : I.D ≤ 1
  · unfold Inp.ghost ghostList at hc
    rw [if_pos hD] at hc
    simp at hc
  · obtain ⟨i, hi1, hi2, j, hj1, hj2, rfl, hout⟩ := (mem_ghost (by omega)).mp hc
    have hin : i < I.n := by
      have := chain_le hpOK.1.2.2 (d + 1) I.D (by omega) (le_refl _)
      rw [hpOK.1.2.1] at this
      omega
    have hjn : j < I.row I.n := by
      have := chain_le hwf.1 (i + 1) I.n (by omega) (le_refl _)
      omega
    exact hwf.2 j hjn

theorem sendList_lt_last (I : Inp) (hwf : csrWF I) (hpOK : I.partsOK) :
    ∀ c ∈ I.sendList, c < I.xpart I.D := by
  intro c hc
  obtain ⟨d, hd, hcg⟩ := mem_sendList.mp hc
  rw [hpOK.2.2.1]
  exact ghost_lt I hwf hpOK hd hcg

/-- The sub-list of the send list made of device `d`'s ghost columns is the
(sorted) ghost set itself. -/
theorem filter_send_eq_ghost (I : Inp) {d : Nat} (hd : d < I.D) :
    I.sendList.filter (fun c => decide (c ∈ I.ghost d)) = I.ghost d := by
  have hnd1 : (I.sendList.filter (fun c => decide (c ∈ I.ghost d))).Nodup :=
    (sendList_nodup _ _ _ _ _).filter _
  have hnd2 : (I.ghost d).Nodup := ghost_nodup _ _ _ _ _ _
  have hperm : (I.sendList.filter (fun c => decide (c ∈ I.ghost d))).Perm (I.ghost d) := by
    rw [List.perm_ext_iff_of_nodup hnd1 hnd2]
    intro a
    rw [List.mem_filter]
    simp only [decide_eq_true_eq]
    exact ⟨fun h => h.2, fun h => ⟨mem_sendList.mpr ⟨d, hd, h⟩, h⟩⟩
  exact List.eq_of_perm_of_sorted hperm
    ((sendList_sortedLE _ _ _ _ _).filter _)
    ((ghost_sorted _ _ _ _ _ _).imp le_of_lt)

theorem getD_indexOf {l : List Nat} {c : Nat} (h : c ∈ l) :
    l.getD (l.indexOf c) 0 = c := by
  rw [List.getD_eq_getElem _ _ (List.indexOf_lt_length.mpr h)]
  exact List.getElem_indexOf _

end GhostBounds

section EntrySums

theorem entSum_split (l : List (Nat × ℚ)) (p : Nat × ℚ → Bool) (x : Nat → ℚ) :
    entSum l x = entSum (l.filter p) x + entSum (l.filter (fun e => !p e)) x := by
  unfold entSum
  rw [← (List.filter_append_perm p l).map (fun e : Nat × ℚ => e.2 * x e.1) |>.sum_eq]
  rw [List.map_append, List.sum_append]

theorem entSum_rowEntries (row col : Nat → Nat) (val : Nat → ℚ) (x : Nat → ℚ) (i : Nat) :
    entSum (rowEntries row col val i) x = refRowSum row col val x i := by
  unfold entSum rowEntries refRowSum
  rw [List.map_map]
  rfl

/-- The local block's kernel sum over the slice of `x` starting at `xbeg`
equals the unrebased sum of the locally kept entries against the global
vector. -/
theorem entSum_localPart (xbeg xend : Nat) (row col : Nat → Nat) (val : Nat → ℚ)
    (i : Nat) (x : Nat → ℚ) :
    entSum (localPart xbeg xend row col val i) (fun k => x (xbeg + k)) =
      entSum ((rowEntries row col val i).filter
        (fun e => decide (xbeg ≤ e.1 ∧ e.1 < xend))) x := by
  unfold entSum localPart
  rw [List.map_map]
  refine congrArg List.sum (List.map_congr_left ?_)
  intro e he
  have hp := (List.mem_filter.mp he).2
  simp only [decide_eq_true_eq] at hp
  show e.2 * x (xbeg + (e.1 - xbeg)) = e.2 * x e.1
  rw [show xbeg + (e.1 - xbeg) = e.1 from by omega]

/-- The remote block's kernel sum over the staged ghost values equals the
sum of the remotely kept entries against the global vector, provided the
staged vector delivers `x c` at the dense index assigned to each ghost
column `c`. -/
theorem entSum_remotePart (xbeg xend : Nat) (g : List Nat) (row col : Nat → Nat)
    (val : Nat → ℚ) (i : Nat) (x xg : Nat → ℚ)
    (hx : ∀ c ∈ g, xg (g.indexOf c) = x c)
    (hmem : ∀ e ∈ (rowEntries row col val i).filter
      (fun e => !decide (xbeg ≤ e.1 ∧ e.1 < xend)), e.1 ∈ g) :
    entSum (remotePart xbeg xend g row col val i) xg =
      entSum ((rowEntries row col val i).filter
        (fun e => !decide (xbeg ≤ e.1 ∧ e.1 < xend))) x := by
  unfold entSum remotePart
  rw [List.map_map]
  refine congrArg List.sum (List.map_congr_left ?_)
  intro e he
  show e.2 * xg (g.indexOf e.1) = e.2 * x e.1
  rw [hx e.1 (hmem e he)]

end EntrySums

section MulLemmas

theorem mulLocal_getD_hasLoc {B : DevBlock} {x : Nat → ℚ} {y : List ℚ} {alpha : ℚ}
    {app : Bool} {k : Nat} (hB : B.hasLoc = true) (hk : k < B.nd) :
    (mulLocal B x y alpha app).getD k 0 =
      (if app then y.getD k 0 else 0) + alpha * kernelRowSum B.locOff B.locEnt x k := by
  unfold mulLocal
  rw [hB, if_pos rfl]
  rw [List.getD_eq_getElem _ _ (by simpa using hk), List.getElem_map, List.getElem_range]
  cases app with
  | true => simp
  | false => simp

theorem mulLocal_getD_empty {B : DevBlock} {x : Nat → ℚ} {y : List ℚ} {alpha : ℚ}
    {app : Bool} {k : Nat} (hB : B.hasLoc = false) (hk : k < y.length) :
    (mulLocal B x y alpha app).getD k 0 = if app then y.getD k 0 else 0 := by
  unfold mulLocal
  rw [hB]
  cases app with
  | true => simp
  | false =>
      simp only [Bool.false_eq_true, if_false]
      rw [List.getD_eq_getElem _ _ (by simpa using hk), List.getElem_replicate]

theorem mulRemote_getD {ε : Type} {B : DevBlock} {x : Nat → ℚ} {y : List ℚ} {alpha : ℚ}
    {ev : List ε} {k : Nat} (hB : B.hasRem = true) (hk : k < B.nd) :
    (mulRemote B x y alpha ev).1.getD k 0 =
      y.getD k 0 + alpha * kernelRowSum B.remOff B.remEnt x k := by
  unfold mulRemote
  rw [hB, if_pos rfl]
  rw [List.getD_eq_getElem _ _ (by simpa using hk), List.getElem_map, List.getElem_range]

theorem colsToRecvAux_nil (l : List Nat) (k : Nat) : colsToRecvAux [] l k = [] := by
  induction l generalizing k with
  | nil => rfl
  | cons c rest ih => simp [colsToRecvAux, ih]

theorem length_colsToRecv (I : Inp) {d : Nat} (hd : d < I.D) :
    (I.colsToRecv d).length = (I.ghost d).length := by
  unfold Inp.colsToRecv
  rw [recv_length, filter_send_eq_ghost I hd]

theorem localRow_nil_of_packedOff_zero {f : Nat → List (Nat × ℚ)} {beg nd k : Nat}
    (h0 : packedOff f beg nd = 0) (hk : k < nd) : f (beg + k) = [] := by
  unfold packedOff at h0
  rw [packed_split beg hk, List.length_append, List.length_append] at h0
  rw [← List.length_eq_zero]
  omega

/-- The redistribution `vals_to_recv[j] = rx[cols_to_recv[j]]` delivers, at
the dense index the renumbering map assigned to ghost column `c`, exactly
the global input value `x c`. -/
theorem valsToRecv_at_ghost (I : Inp) (hwf : csrWF I) (hpOK : I.partsOK) (x : Nat → ℚ)
    {d c : Nat} (hd : d < I.D) (hc : c ∈ I.ghost d) :
    (I.valsToRecv x d).getD ((I.ghost d).indexOf c) 0 = x c := by
  have hc' := hc
  have hj : (I.ghost d).indexOf c < (I.ghost d).length := List.indexOf_lt_length.mpr hc
  set j := (I.ghost d).indexOf c with hjdef
  have hjr : j < (colsToRecvAux (I.ghost d) I.sendList 0).length := by
    have hlen := length_colsToRecv I hd
    unfold Inp.colsToRecv at hlen
    omega
  set i0 := (colsToRecvAux (I.ghost d) I.sendList 0).getD j 0 with hi0def
  have hi0mem : i0 ∈ colsToRecvAux (I.ghost d) I.sendList 0 := by
    rw [hi0def, List.getD_eq_getElem _ _ hjr]
    exact List.getElem_mem _
  have hi0lt : i0 < I.sendList.length := recv_lt_length _ _ _ hi0mem
  have hsend_i0 : I.sendList.getD i0 0 = c := by
    have hmap := recv_map_getD (I.ghost d) I.sendList
    rw [filter_send_eq_ghost I hd] at hmap
    have h1 : (List.map (fun i => I.sendList.getD i 0)
        (colsToRecvAux (I.ghost d) I.sendList 0)).getD j 0 = (I.ghost d).getD j 0 := by
      rw [hmap]
    rw [List.getD_eq_getElem _ _ (by rw [List.length_map]; exact hjr), List.getElem_map,
        ← List.getD_eq_getElem _ _ hjr, ← hi0def] at h1
    rw [h1, hjdef, getD_indexOf hc']
  show ((colsToRecvAux (I.ghost d) I.sendList 0).map (fun i => (I.rx x).getD i 0)).getD j 0 = x c
  rw [List.getD_eq_getElem _ _ (by rw [List.length_map]; exact hjr), List.getElem_map,
      ← List.getD_eq_getElem _ _ hjr, ← hi0def]
  rw [rx_getD I x hpOK.2.1 hpOK.2.2.2 (sendList_lt_last I hwf hpOK) i0 hi0lt, hsend_i0]

end MulLemmas

section MainCorrectness

theorem block_fast (I : Inp) {d : Nat} (hcond : I.part d = 0 ∧ I.ghost d = []) :
    I.block d =
      { nd := I.part (d + 1) - I.part d
        hasLoc := decide (I.row (I.part (d + 1) - I.part d) ≠ 0)
        hasRem := false
        locOff := I.row
        locEnt := fun j => (I.col j, I.val j)
        remOff := fun _ => 0
        remEnt := fun _ => (0, 0) } := by
  unfold Inp.block buildCSR
  rw [if_pos hcond]

theorem block_slow (I : Inp) {d : Nat} (hcond : ¬(I.part d = 0 ∧ I.ghost d = [])) :
    I.block d =
      { nd := I.part (d + 1) - I.part d
        hasLoc := decide (packedOff (localPart (I.xpart d) (I.xpart (d + 1)) I.row I.col I.val)
          (I.part d) (I.part (d + 1) - I.part d) ≠ 0)
        hasRem := decide (I.ghost d ≠ [])
        locOff := packedOff (localPart (I.xpart d) (I.xpart (d + 1)) I.row I.col I.val) (I.part d)
        locEnt := fun j => (packed (localPart (I.xpart d) (I.xpart (d + 1)) I.row I.col I.val)
          (I.part d) (I.part (d + 1) - I.part d)).getD j (0, 0)
        remOff := packedOff (remotePart (I.xpart d) (I.xpart (d + 1)) (I.ghost d) I.row I.col I.val)
          (I.part d)
        remEnt := fun j => (packed (remotePart (I.xpart d) (I.xpart (d + 1)) (I.ghost d) I.row I.col I.val)
          (I.part d) (I.part (d + 1) - I.part d)).getD j (0, 0) } := by
  unfold Inp.block buildCSR
  rw [if_neg hcond]

theorem rowEntries_mem {row col : Nat → Nat} {val : Nat → ℚ} {i : Nat} {e : Nat × ℚ}
    (he : e ∈ rowEntries row col val i) :
    ∃ j, row i ≤ j ∧ j < row (i + 1) ∧ e = (col j, val j) := by
  unfold rowEntries at he
  rcases List.mem_map.mp he with ⟨j, hj, rfl⟩
  rw [List.mem_range'_1] at hj
  exact ⟨j, hj.1, by omega, rfl⟩

/-- When a constructed device's ghost set is empty, every nonzero of its row
strip has its column inside the device's own column partition. -/
theorem no_outside_of_ghost_nil (I : Inp) (hwf : csrWF I) (hpOK : I.partsOK) {d : Nat}
    (hd : d < I.D) (hg : I.ghost d = []) {i : Nat} (hi1 : I.part d ≤ i)
    (hi2 : i < I.part (d + 1)) :
    ∀ e ∈ rowEntries I.row I.col I.val i, I.xpart d ≤ e.1 ∧ e.1 < I.xpart (d + 1) := by
  intro e he
  obtain ⟨j, hj1, hj2, rfl⟩ := rowEntries_mem he
  have hin : i < I.n := by
    have := chain_le hpOK.1.2.2 (d + 1) I.D (by omega) (le_refl _)
    rw [hpOK.1.2.1] at this
    omega
  have hjn : j < I.row I.n := by
    have := chain_le hwf.1 (i + 1) I.n (by omega) (le_refl _)
    omega
  have hcm : I.col j < I.m := hwf.2 j hjn
  by_cases hD : I.D ≤ 1
  · have hd0 : d = 0 := by omega
    have hD1 : I.D = 1 := by omega
    subst hd0
    constructor
    · rw [hpOK.2.1]
      exact Nat.zero_le _
    · have := hpOK.2.2.1
      rw [hD1] at this
      simp only [Nat.zero_add]
      omega
  · by_contra hcon
    have hout : I.col j < I.xpart d ∨ I.xpart (d + 1) ≤ I.col j := by
      simp only [not_and_or, not_le, not_lt] at hcon
      omega
    have : I.col j ∈ I.ghost d :=
      (mem_ghost (by omega)).mpr ⟨i, hi1, hi2, j, hj1, hj2, rfl, hout⟩
    rw [hg] at this
    simp at this

/-- When there are at least two devices, every nonzero with a column outside
the device's column partition has its column in the device's ghost set. -/
theorem outside_mem_ghost (I : Inp) (hD : 2 ≤ I.D) {d : Nat} (_hd : d < I.D) {i : Nat}
    (hi1 : I.part d ≤ i) (hi2 : i < I.part (d + 1)) :
    ∀ e ∈ (rowEntries I.row I.col I.val i).filter
      (fun e => !decide (I.xpart d ≤ e.1 ∧ e.1 < I.xpart (d + 1))), e.1 ∈ I.ghost d := by
  intro e he
  have hmem := (List.mem_filter.mp he).1
  have hout := (List.mem_filter.mp he).2
  obtain ⟨j, hj1, hj2, rfl⟩ := rowEntries_mem hmem
  simp only [Bool.not_eq_true', decide_eq_false_iff_not, not_and_or, not_le, not_lt] at hout
  exact (mem_ghost hD).mpr ⟨i, hi1, hi2, j, hj1, hj2, rfl,
    by rcases hout with h | h
       · exact Or.inl h
       · exact Or.inr h⟩

/-- The local pass of one multiply: on device `d`'s slice, entry `k` receives
its prior value (under `append`) plus `alpha` times the sum over exactly the
local-block entries of global row `part d + k`. -/
theorem localPass_spec (I : Inp) (hwf : csrWF I) (hpOK : I.partsOK) (hfast : fastOK I)
    (x : Nat → ℚ) (alpha : ℚ) (app : Bool) {d : Nat} (hd : d < I.D)
    {y0 : List ℚ} (hy : y0.length = I.part (d + 1) - I.part d) :
    ∀ k, k < I.part (d + 1) - I.part d →
      (I.localPass x y0 alpha app d).getD k 0 =
        (if app then y0.getD k 0 else 0) +
          alpha * entSum ((rowEntries I.row I.col I.val (I.part d + k)).filter
            (fun e => decide (I.xpart d ≤ e.1 ∧ e.1 < I.xpart (d + 1)))) x := by
  intro k hk
  have hbe : I.part d < I.part (d + 1) := by omega
  have hn1 : I.part (d + 1) ≤ I.n := by
    have := chain_le hpOK.1.2.2 (d + 1) I.D (by omega) (le_refl _)
    rw [hpOK.1.2.1] at this
    exact this
  unfold Inp.localPass
  rw [if_pos hbe]
  by_cases hcond : I.part d = 0 ∧ I.ghost d = []
  · -- fast path: global arrays, no renumbering; sound because xpart d = 0 here
    have hx0 : I.xpart d = 0 := hfast d hd hcond.1 hbe hcond.2
    rw [block_fast I hcond]
    have hall : ∀ e ∈ rowEntries I.row I.col I.val (I.part d + k),
        I.xpart d ≤ e.1 ∧ e.1 < I.xpart (d + 1) :=
      no_outside_of_ghost_nil I hwf hpOK hd hcond.2 (by omega) (by omega)
    have hfilter : (rowEntries I.row I.col I.val (I.part d + k)).filter
        (fun e => decide (I.xpart d ≤ e.1 ∧ e.1 < I.xpart (d + 1))) =
        rowEntries I.row I.col I.val (I.part d + k) := by
      rw [List.filter_eq_self]
      intro e he
      simpa using hall e he
    rw [hfilter]
    by_cases hloc : I.row (I.part (d + 1) - I.part d) ≠ 0
    · rw [mulLocal_getD_hasLoc (by simpa using hloc) (by dsimp only; exact hk)]
      have hker : kernelRowSum I.row (fun j => (I.col j, I.val j)) (I.xSlice x d) k =
          entSum (rowEntries I.row I.col I.val (I.part d + k)) x := by
        rw [hcond.1, Nat.zero_add]
        unfold kernelRowSum entSum rowEntries Inp.xSlice
        rw [List.map_map]
        refine congrArg List.sum (List.map_congr_left ?_)
        intro j hj
        show I.val j * x (I.xpart d + I.col j) = I.val j * x (I.col j)
        rw [hx0, Nat.zero_add]
      rw [hker]
    · have hlor : I.row (I.part (d + 1) - I.part d) = 0 := by
        by_contra hne
        exact hloc hne
      rw [mulLocal_getD_empty (by simp [hlor]) (by omega)]
      have hrow0 : I.row (I.part d + k + 1) = 0 := by
        have h1 : I.row (I.part d + k + 1) ≤ I.row (I.part (d + 1)) :=
          chain_le hwf.1 (I.part d + k + 1) (I.part (d + 1)) (by omega) hn1
        rw [hcond.1] at hlor
        rw [show I.part (d + 1) - 0 = I.part (d + 1) from by omega] at hlor
        omega
      have hempty : rowEntries I.row I.col I.val (I.part d + k) = [] := by
        unfold rowEntries
        rw [show I.row (I.part d + k + 1) - I.row (I.part d + k) = 0 from by omega]
        rfl
      rw [hempty]
      simp [entSum]
  · -- renumbering path
    rw [block_slow I hcond]
    by_cases hloc : packedOff (localPart (I.xpart d) (I.xpart (d + 1)) I.row I.col I.val)
        (I.part d) (I.part (d + 1) - I.part d) ≠ 0
    · rw [mulLocal_getD_hasLoc (by simpa using hloc) (by dsimp only; exact hk)]
      have hker : kernelRowSum
          (packedOff (localPart (I.xpart d) (I.xpart (d + 1)) I.row I.col I.val) (I.part d))
          (fun j => (packed (localPart (I.xpart d) (I.xpart (d + 1)) I.row I.col I.val)
            (I.part d) (I.part (d + 1) - I.part d)).getD j (0, 0))
          (I.xSlice x d) k =
          entSum ((rowEntries I.row I.col I.val (I.part d + k)).filter
            (fun e => decide (I.xpart d ≤ e.1 ∧ e.1 < I.xpart (d + 1)))) x := by
        rw [kernelRowSum_packed hk (I.xSlice x d)]
        exact entSum_localPart (I.xpart d) (I.xpart (d + 1)) I.row I.col I.val (I.part d + k) x
      rw [hker]
    · have h0 : packedOff (localPart (I.xpart d) (I.xpart (d + 1)) I.row I.col I.val)
          (I.part d) (I.part (d + 1) - I.part d) = 0 := by
        by_contra hne
        exact hloc hne
      rw [mulLocal_getD_empty (by simp [h0]) (by omega)]
      have hnil : localPart (I.xpart d) (I.xpart (d + 1)) I.row I.col I.val (I.part d + k) = [] :=
        localRow_nil_of_packedOff_zero h0 hk
      have hz := entSum_localPart (I.xpart d) (I.xpart (d + 1)) I.row I.col I.val (I.part d + k) x
      rw [hnil] at hz
      rw [← hz]
      simp [entSum]

/-- One `SpMat::mul` call on device `d` computes, at every local output index
`k`, the prior value (under `append`) plus `alpha` times the dense reference
row sum of global row `part d + k`: local and remote contributions combine
to the full row. -/
theorem deviceMul_spec (I : Inp) (hwf : csrWF I) (hpOK : I.partsOK) (hfast : fastOK I)
    (x : Nat → ℚ) (alpha : ℚ) (app : Bool) {d : Nat} (hd : d < I.D)
    {y0 : List ℚ} (hy : y0.length = I.part (d + 1) - I.part d) :
    ∀ k, k < I.part (d + 1) - I.part d →
      (I.deviceMul x y0 alpha app d).getD k 0 =
        (if app then y0.getD k 0 else 0) +
          alpha * refRowSum I.row I.col I.val x (I.part d + k) := by
  intro k hk
  have hloc := localPass_spec I hwf hpOK hfast x alpha app hd hy k hk
  have hsplit := entSum_split (rowEntries I.row I.col I.val (I.part d + k))
    (fun e => decide (I.xpart d ≤ e.1 ∧ e.1 < I.xpart (d + 1))) x
  rw [entSum_rowEntries] at hsplit
  unfold Inp.deviceMul
  by_cases hrem : I.sendList.length ≠ 0 ∧ (I.colsToRecv d).length ≠ 0
  · rw [if_pos hrem]
    have hgne : I.ghost d ≠ [] := by
      intro h
      have hlen := length_colsToRecv I hd
      rw [h] at hlen
      exact hrem.2 (by simpa using hlen)
    have hD2 : 2 ≤ I.D := by
      by_contra hD
      refine hgne ?_
      unfold Inp.ghost ghostList
      rw [if_pos (by omega)]
    have hcond : ¬(I.part d = 0 ∧ I.ghost d = []) := fun h => hgne h.2
    have hbrem : (I.block d).hasRem = true := by
      rw [block_slow I hcond]
      simpa using hgne
    have hker : kernelRowSum (I.block d).remOff (I.block d).remEnt
        (fun j => (I.valsToRecv x d).getD j 0) k =
        entSum ((rowEntries I.row I.col I.val (I.part d + k)).filter
          (fun e => !decide (I.xpart d ≤ e.1 ∧ e.1 < I.xpart (d + 1)))) x := by
      rw [block_slow I hcond]
      dsimp only
      rw [kernelRowSum_packed hk (fun j => (I.valsToRecv x d).getD j 0)]
      refine entSum_remotePart (I.xpart d) (I.xpart (d + 1)) (I.ghost d) I.row I.col I.val
        (I.part d + k) x _ ?_ ?_
      · intro c hcg
        exact valsToRecv_at_ghost I hwf hpOK x hd hcg
      · exact outside_mem_ghost I hD2 hd (by omega) (by omega)
    rw [mulRemote_getD hbrem (by rw [block_slow I hcond]; exact hk), hker, hloc, hsplit]
    ring
  · rw [if_neg hrem]
    rw [hloc]
    have hgnil : I.ghost d = [] := by
      by_cases hr2 : (I.colsToRecv d).length = 0
      · have hlen := length_colsToRecv I hd
        rw [hr2] at hlen
        exact List.length_eq_zero.mp hlen.symm
      · have hs0 : I.sendList.length = 0 := by
          by_contra hs
          exact hrem ⟨hs, hr2⟩
        by_contra hne
        obtain ⟨c, hcmem⟩ := List.exists_mem_of_ne_nil _ hne
        have : c ∈ I.sendList := mem_sendList.mpr ⟨d, hd, hcmem⟩
        rw [List.length_eq_zero.mp hs0] at this
        simp at this
    have hnone : (rowEntries I.row I.col I.val (I.part d + k)).filter
        (fun e => !decide (I.xpart d ≤ e.1 ∧ e.1 < I.xpart (d + 1))) = [] := by
      rw [List.filter_eq_nil_iff]
      intro e he
      have := no_outside_of_ghost_nil I hwf hpOK hd hgnil
        (show I.part d ≤ I.part d + k from by omega) (by omega) e he
      simpa using this
    rw [hsplit, hnone]
    simp [entSum]

end MainCorrectness

section Claims

/-- C1 (amended): for every well-formed CSR input, every device count, every
pair of valid partition boundary vectors such that any device taking the
no-renumber fast path (row range starting at 0, empty ghost set) also has
its column range starting at 0, and every input vector, `SpMat::mul` makes
each device's slice of `y` equal to `alpha * A * x` at its rows when
`append` is false, and adds `alpha * A * x` to the prior contents when
`append` is true — local and remote (ghost-exchanged) contributions
combined, against the dense reference row sums. -/
theorem C1_mul_matches_reference (I : Inp) (hwf : csrWF I) (hpOK : I.partsOK)
    (hfast : fastOK I) (x : Nat → ℚ) (alpha : ℚ) (app : Bool) {d : Nat} (hd : d < I.D)
    {y0 : List ℚ} (hy : y0.length = I.part (d + 1) - I.part d) :
    ∀ k, k < I.part (d + 1) - I.part d →
      (I.deviceMul x y0 alpha app d).getD k 0 =
        (if app then y0.getD k 0 else 0) +
          alpha * refRowSum I.row I.col I.val x (I.part d + k) :=
  deviceMul_spec I hwf hpOK hfast x alpha app hd hy

/-- C1 counterexample: on the valid 1×2 CSR input of `badInp` with valid
two-device partitions (rows `[0,0,1]`, columns `[0,1,2]`), `mul` with
`alpha = 1`, `append = false` does not produce `alpha * A * x`: device 1
takes the no-renumber fast path with `xpart 1 = 1` and reads its local slice
of `x` at the unrebased global column index, one past the slice's end. -/
theorem C1_counterexample :
    csrWF badInp ∧ badInp.partsOK ∧
      ¬((badInp.deviceMul swapX [0] 1 false 1).getD 0 0 =
        1 * refRowSum badInp.row badInp.col badInp.val swapX (badInp.part 1 + 0)) := by
  refine ⟨by unfold csrWF; decide, by unfold Inp.partsOK partOK; decide, ?_⟩
  norm_num [Inp.deviceMul, Inp.localPass, Inp.block, buildCSR, Inp.ghost, ghostList, scanCols,
    setIns, insSorted, Inp.sendList, sendListOf, Inp.colsToRecv, colsToRecvAux, mulLocal,
    mulRemote, kernelRowSum, Inp.xSlice, swapX, badInp, List.range', packedOff, packed,
    localPart, remotePart, rowEntries, cidx, lowerBound, colsToSend, entSum, refRowSum,
    Inp.rx, Inp.valsToRecv]

/-- C1 witness: the amended theorem applied to the concrete two-device swap
matrix, device 0, output index 0. -/
theorem C1_witness :
    csrWF swapInp ∧ swapInp.partsOK ∧ fastOK swapInp ∧
      0 < swapInp.D ∧ ([(5 : ℚ)]).length = swapInp.part (0 + 1) - swapInp.part 0 ∧
      0 < swapInp.part (0 + 1) - swapInp.part 0 ∧
      (swapInp.deviceMul swapX [5] 1 false 0).getD 0 0 =
        (if false then ([(5 : ℚ)]).getD 0 0 else 0) +
          1 * refRowSum swapInp.row swapInp.col swapInp.val swapX (swapInp.part 0 + 0) :=
  ⟨by unfold csrWF; decide, by unfold Inp.partsOK partOK; decide,
   by unfold fastOK Inp.ghost ghostList scanCols setIns insSorted; decide,
   by decide, by decide, by decide,
   C1_mul_matches_reference swapInp (by unfold csrWF; decide)
     (by unfold Inp.partsOK partOK; decide)
     (by unfold fastOK Inp.ghost ghostList scanCols setIns insSorted; decide)
     swapX 1 false (by decide) (by decide) 0 (by decide)⟩

/-- C2: during the renumbering pass of `SpMatCSR` construction, every nonzero
of every row in the device's strip lands in exactly one of the local and
remote blocks: reverse-renumbering the two blocks (adding back `xbeg` on
the local side, looking the dense index up in the sorted ghost set on the
remote side) and concatenating them is a permutation of the row's original
(column, value) entries — nothing dropped, nothing duplicated. -/
theorem C2_split_reverse_renumbering (I : Inp) (hwf : csrWF I) (hpOK : I.partsOK)
    {d : Nat} (hd : d < I.D) {i : Nat} (hi1 : I.part d ≤ i) (hi2 : i < I.part (d + 1)) :
    ((localPart (I.xpart d) (I.xpart (d + 1)) I.row I.col I.val i).map
        (fun e => (e.1 + I.xpart d, e.2)) ++
      (remotePart (I.xpart d) (I.xpart (d + 1)) (I.ghost d) I.row I.col I.val i).map
        (fun e => ((I.ghost d).getD e.1 0, e.2))).Perm
      (rowEntries I.row I.col I.val i) := by
  have hmem : ∀ e ∈ (rowEntries I.row I.col I.val i).filter
      (fun e => !decide (I.xpart d ≤ e.1 ∧ e.1 < I.xpart (d + 1))), e.1 ∈ I.ghost d := by
    by_cases hD : 2 ≤ I.D
    · exact outside_mem_ghost I hD hd hi1 hi2
    · intro e he
      exfalso
      have hg : I.ghost d = [] := by
        unfold Inp.ghost ghostList
        rw [if_pos (by omega)]
      have hloc := no_outside_of_ghost_nil I hwf hpOK hd hg hi1 hi2 e (List.mem_filter.mp he).1
      have hne := (List.mem_filter.mp he).2
      simp only [Bool.not_eq_true', decide_eq_false_iff_not] at hne
      exact hne hloc
  have hl : (localPart (I.xpart d) (I.xpart (d + 1)) I.row I.col I.val i).map
      (fun e => (e.1 + I.xpart d, e.2)) =
      (rowEntries I.row I.col I.val i).filter
        (fun e => decide (I.xpart d ≤ e.1 ∧ e.1 < I.xpart (d + 1))) := by
    unfold localPart
    rw [List.map_map]
    refine Eq.trans (List.map_congr_left ?_) (List.map_id _)
    intro e he
    have hp := (List.mem_filter.mp he).2
    simp only [decide_eq_true_eq] at hp
    show (e.1 - I.xpart d + I.xpart d, e.2) = e
    rcases e with ⟨c, v⟩
    rw [Nat.sub_add_cancel hp.1]
  have hr : (remotePart (I.xpart d) (I.xpart (d + 1)) (I.ghost d) I.row I.col I.val i).map
      (fun e => ((I.ghost d).getD e.1 0, e.2)) =
      (rowEntries I.row I.col I.val i).filter
        (fun e => !decide (I.xpart d ≤ e.1 ∧ e.1 < I.xpart (d + 1))) := by
    unfold remotePart
    rw [List.map_map]
    refine Eq.trans (List.map_congr_left ?_) (List.map_id _)
    intro e he
    show ((I.ghost d).getD ((I.ghost d).indexOf e.1) 0, e.2) = e
    rcases e with ⟨c, v⟩
    rw [getD_indexOf (hmem ⟨c, v⟩ he)]
  rw [hl, hr]
  exact List.filter_append_perm _ _

/-- C2 witness: applied to the concrete swap matrix, device 0, row 0. -/
theorem C2_witness :
    csrWF swapInp ∧ swapInp.partsOK ∧ 0 < swapInp.D ∧
      ((localPart (swapInp.xpart 0) (swapInp.xpart (0 + 1)) swapInp.row swapInp.col
          swapInp.val 0).map (fun e => (e.1 + swapInp.xpart 0, e.2)) ++
        (remotePart (swapInp.xpart 0) (swapInp.xpart (0 + 1)) (swapInp.ghost 0) swapInp.row
          swapInp.col swapInp.val 0).map
            (fun e => ((swapInp.ghost 0).getD e.1 0, e.2))).Perm
        (rowEntries swapInp.row swapInp.col swapInp.val 0) :=
  ⟨by unfold csrWF; decide, by unfold Inp.partsOK partOK; decide, by decide,
   C2_split_reverse_renumbering swapInp (by unfold csrWF; decide)
     (by unfold Inp.partsOK partOK; decide) (by decide) (by decide) (by decide)⟩

/-- C3: with at least two devices, `setup_exchange`'s ghost set of device `d`
contains a column `c` exactly when some row of device `d`'s row strip has a
nonzero at column `c` lying outside the device's column partition; in
particular columns inside the partition never enter the ghost set. -/
theorem C3_ghost_characterization (I : Inp) (hD : 2 ≤ I.D) (d c : Nat) :
    c ∈ I.ghost d ↔
      ∃ i, I.part d ≤ i ∧ i < I.part (d + 1) ∧
        ∃ j, I.row i ≤ j ∧ j < I.row (i + 1) ∧ I.col j = c ∧
          (c < I.xpart d ∨ I.xpart (d + 1) ≤ c) :=
  mem_ghost hD

/-- C3 witness: on the swap matrix, column 1 is in device 0's ghost set. -/
theorem C3_witness :
    2 ≤ swapInp.D ∧
      (1 ∈ swapInp.ghost 0 ↔
        ∃ i, swapInp.part 0 ≤ i ∧ i < swapInp.part (0 + 1) ∧
          ∃ j, swapInp.row i ≤ j ∧ j < swapInp.row (i + 1) ∧ swapInp.col j = 1 ∧
            (1 < swapInp.xpart 0 ∨ swapInp.xpart (0 + 1) ≤ 1)) :=
  ⟨by decide, C3_ghost_characterization swapInp (by decide) 0 1⟩

/-- C4: `cols_to_send` is strictly sorted (sorted and duplicate-free) and is
the union of the ghost sets; the `lower_bound`-built `cidx` starts at 0,
ends at the send-list length, is non-decreasing, and for every device `d`
and send-list position `i`, `cidx d ≤ i < cidx (d+1)` holds exactly when the
`i`-th send-list column lies in `[xpart d, xpart (d+1))` — so the per-device
sub-ranges are disjoint and cover the whole send list. -/
theorem C4_sendlist_partitioned (I : Inp) (hwf : csrWF I) (hpOK : I.partsOK) :
    I.sendList.Sorted (· < ·) ∧
    (∀ c, c ∈ I.sendList ↔ ∃ d < I.D, c ∈ I.ghost d) ∧
    cidx I.sendList I.xpart 0 = 0 ∧
    cidx I.sendList I.xpart I.D = I.sendList.length ∧
    (∀ d < I.D, cidx I.sendList I.xpart d ≤ cidx I.sendList I.xpart (d + 1)) ∧
    (∀ d < I.D, ∀ i < I.sendList.length,
      (cidx I.sendList I.xpart d ≤ i ∧ i < cidx I.sendList I.xpart (d + 1)) ↔
        (I.xpart d ≤ I.sendList.getD i 0 ∧ I.sendList.getD i 0 < I.xpart (d + 1))) := by
  have hs : I.sendList.Sorted (· ≤ ·) := sendList_sortedLE _ _ _ _ _
  refine ⟨sendList_sorted _ _ _ _ _, fun c => mem_sendList, cidx_zero hpOK.2.1,
    cidx_top hs hpOK.2.2.2 (sendList_lt_last I hwf hpOK),
    fun d hd => cidx_mono hs (fun e he => hpOK.2.2.2 e (by omega)), ?_⟩
  intro d hd i hi
  have hmono : ∀ e < d + 1, I.xpart e ≤ I.xpart (e + 1) := fun e he => hpOK.2.2.2 e (by omega)
  constructor
  · rintro ⟨h1, h2⟩
    constructor
    · refine sorted_le_getD hs ?_ hi
      rw [← cidx_eq_countP hs (fun e he => hmono e (by omega))]
      exact h1
    · refine sorted_getD_lt hs ?_
      rw [← cidx_eq_countP hs hmono]
      exact h2
  · rintro ⟨h1, h2⟩
    constructor
    · by_contra hcon
      have hlt : I.sendList.getD i 0 < I.xpart d := by
        refine sorted_getD_lt hs ?_
        rw [← cidx_eq_countP hs (fun e he => hmono e (by omega))]
        omega
      omega
    · by_contra hcon
      have hge : I.xpart (d + 1) ≤ I.sendList.getD i 0 := by
        refine sorted_le_getD hs ?_ hi
        rw [← cidx_eq_countP hs hmono]
        omega
      omega

/-- C4 witness: on the swap matrix the send list is `[0, 1]` and position 0
belongs to device 0's sub-range exactly as its column 0 lies in `[0, 1)`. -/
theorem C4_witness :
    csrWF swapInp ∧ swapInp.partsOK ∧ 0 < swapInp.D ∧ 0 < swapInp.sendList.length ∧
      ((cidx swapInp.sendList swapInp.xpart 0 ≤ 0 ∧
          0 < cidx swapInp.sendList swapInp.xpart (0 + 1)) ↔
        (swapInp.xpart 0 ≤ swapInp.sendList.getD 0 0 ∧
          swapInp.sendList.getD 0 0 < swapInp.xpart (0 + 1))) :=
  ⟨by unfold csrWF; decide, by unfold Inp.partsOK partOK; decide, by decide,
   by unfold Inp.sendList sendListOf ghostList scanCols setIns insSorted; decide,
   (C4_sendlist_partitioned swapInp (by unfold csrWF; decide)
      (by unfold Inp.partsOK partOK; decide)).2.2.2.2.2 0 (by decide) 0
      (by unfold Inp.sendList sendListOf ghostList scanCols setIns insSorted; decide)⟩

/-- C5: `exc[d].cols_to_recv` has one entry per ghost column; its `j`-th
entry is a position into the global send list whose column is the `j`-th
smallest ghost column of device `d`; and the per-multiply redistribution
`vals_to_recv[j] = rx[cols_to_recv[j]]` delivers, at the dense index the
renumbering map assigned to ghost column `c` (its rank in the sorted ghost
set), exactly the input-vector value `x c`. -/
theorem C5_recv_positions (I : Inp) (hwf : csrWF I) (hpOK : I.partsOK) (x : Nat → ℚ)
    {d : Nat} (hd : d < I.D) :
    (I.colsToRecv d).length = (I.ghost d).length ∧
    (∀ j < (I.ghost d).length,
      (I.colsToRecv d).getD j 0 < I.sendList.length ∧
      I.sendList.getD ((I.colsToRecv d).getD j 0) 0 = (I.ghost d).getD j 0) ∧
    (∀ c ∈ I.ghost d,
      (I.ghost d).indexOf c < (I.ghost d).length ∧
      (I.valsToRecv x d).getD ((I.ghost d).indexOf c) 0 = x c) := by
  refine ⟨length_colsToRecv I hd, ?_, ?_⟩
  · intro j hj
    have hjr : j < (colsToRecvAux (I.ghost d) I.sendList 0).length := by
      have hlen := length_colsToRecv I hd
      unfold Inp.colsToRecv at hlen
      omega
    constructor
    · have hmem : (I.colsToRecv d).getD j 0 ∈ colsToRecvAux (I.ghost d) I.sendList 0 := by
        show (colsToRecvAux (I.ghost d) I.sendList 0).getD j 0 ∈ _
        rw [List.getD_eq_getElem _ _ hjr]
        exact List.getElem_mem _
      exact recv_lt_length _ _ _ hmem
    · have hmap := recv_map_getD (I.ghost d) I.sendList
      rw [filter_send_eq_ghost I hd] at hmap
      have h1 : (List.map (fun i => I.sendList.getD i 0)
          (colsToRecvAux (I.ghost d) I.sendList 0)).getD j 0 = (I.ghost d).getD j 0 := by
        rw [hmap]
      rw [List.getD_eq_getElem _ _ (by rw [List.length_map]; exact hjr), List.getElem_map,
          ← List.getD_eq_getElem _ _ hjr] at h1
      exact h1
  · intro c hc
    exact ⟨List.indexOf_lt_length.mpr hc, valsToRecv_at_ghost I hwf hpOK x hd hc⟩

/-- C5 witness: on the swap matrix, device 0's single ghost column 1 sits at
send-list position 1, and the redistribution delivers `x 1` at dense index
0. -/
theorem C5_witness :
    csrWF swapInp ∧ swapInp.partsOK ∧ 0 < swapInp.D ∧ 1 ∈ swapInp.ghost 0 ∧
      (swapInp.ghost 0).indexOf 1 < (swapInp.ghost 0).length ∧
      (swapInp.valsToRecv swapX 0).getD ((swapInp.ghost 0).indexOf 1) 0 = swapX 1 :=
  ⟨by unfold csrWF; decide, by unfold Inp.partsOK partOK; decide, by decide,
   by unfold Inp.ghost ghostList scanCols setIns insSorted; decide,
   ((C5_recv_positions swapInp (by unfold csrWF; decide)
      (by unfold Inp.partsOK partOK; decide) swapX (by decide)).2.2 1
      (by unfold Inp.ghost ghostList scanCols setIns insSorted; decide)).1,
   ((C5_recv_positions swapInp (by unfold csrWF; decide)
      (by unfold Inp.partsOK partOK; decide) swapX (by decide)).2.2 1
      (by unfold Inp.ghost ghostList scanCols setIns insSorted; decide)).2⟩

/-- C6: `SpMatCSR::mul_local` on a constructed block: with a nonempty local
block it writes `y[i] = alpha * sum` (or `y[i] += alpha * sum` under
`append`) over the block's rows; with an empty local block it returns `y`
untouched under `append` and zeroes the whole of `y` otherwise; and on the
renumbering path the `has_loc` flag is false exactly when the local block
holds no entries. -/
theorem C6_mul_local_cases (beg e xbeg xend : Nat) (row col : Nat → Nat) (val : Nat → ℚ)
    (remote : List Nat) (x : Nat → ℚ) (y : List ℚ) (alpha : ℚ) :
    ((buildCSR beg e xbeg xend row col val remote).hasLoc = true →
      ∀ app : Bool, ∀ k, k < (buildCSR beg e xbeg xend row col val remote).nd →
        (mulLocal (buildCSR beg e xbeg xend row col val remote) x y alpha app).getD k 0 =
          (if app then y.getD k 0 else 0) +
            alpha * kernelRowSum (buildCSR beg e xbeg xend row col val remote).locOff
              (buildCSR beg e xbeg xend row col val remote).locEnt x k) ∧
    ((buildCSR beg e xbeg xend row col val remote).hasLoc = false →
      mulLocal (buildCSR beg e xbeg xend row col val remote) x y alpha true = y ∧
      mulLocal (buildCSR beg e xbeg xend row col val remote) x y alpha false =
        List.replicate y.length 0) ∧
    (¬(beg = 0 ∧ remote = []) →
      ((buildCSR beg e xbeg xend row col val remote).hasLoc = false ↔
        packed (localPart xbeg xend row col val) beg (e - beg) = [])) := by
  refine ⟨fun hB app k hk => mulLocal_getD_hasLoc hB hk, fun hB => ?_, fun hcond => ?_⟩
  · constructor
    · unfold mulLocal
      rw [hB]
      simp
    · unfold mulLocal
      rw [hB]
      simp
  · unfold buildCSR
    rw [if_neg hcond]
    show decide (packedOff (localPart xbeg xend row col val) beg (e - beg) ≠ 0) = false ↔ _
    rw [decide_eq_false_iff_not, not_ne_iff]
    unfold packedOff
    exact List.length_eq_zero

/-- C6 witness: device 1 of the swap matrix has an empty local block, so
`mul_local` with `append` is a no-op and without `append` zeroes `y`. -/
theorem C6_witness :
    (buildCSR 1 2 1 2 swapInp.row swapInp.col swapInp.val [0]).hasLoc = false ∧
      mulLocal (buildCSR 1 2 1 2 swapInp.row swapInp.col swapInp.val [0]) swapX [7] 1 true =
        [(7 : ℚ)] ∧
      mulLocal (buildCSR 1 2 1 2 swapInp.row swapInp.col swapInp.val [0]) swapX [7] 1 false =
        List.replicate ([(7 : ℚ)]).length 0 :=
  ⟨by unfold buildCSR packedOff packed localPart rowEntries; decide,
   ((C6_mul_local_cases 1 2 1 2 swapInp.row swapInp.col swapInp.val [0] swapX [7] 1).2.1
     (by unfold buildCSR packedOff packed localPart rowEntries; decide)).1,
   ((C6_mul_local_cases 1 2 1 2 swapInp.row swapInp.col swapInp.val [0] swapX [7] 1).2.1
     (by unfold buildCSR packedOff packed localPart rowEntries; decide)).2⟩

/-- C7: `SpMatCSR::mul_remote` never overwrites `y`: with an empty remote
block it returns immediately, leaving `y` untouched and enqueuing nothing;
otherwise it only accumulates (`spmv_add`, `y[i] += alpha * sum`) into the
existing contents, and the enqueued kernel carries exactly the supplied
event list as its wait list (so it reads the staged ghost buffer only after
those events complete); `has_rem` is set exactly when the ghost set is
nonempty. -/
theorem C7_mul_remote_accumulates {ε : Type} (beg e xbeg xend : Nat) (row col : Nat → Nat)
    (val : Nat → ℚ) (remote : List Nat) (x : Nat → ℚ) (y : List ℚ) (alpha : ℚ)
    (ev : List ε) :
    ((buildCSR beg e xbeg xend row col val remote).hasRem = false →
      mulRemote (buildCSR beg e xbeg xend row col val remote) x y alpha ev = (y, none)) ∧
    ((buildCSR beg e xbeg xend row col val remote).hasRem = true →
      (mulRemote (buildCSR beg e xbeg xend row col val remote) x y alpha ev).2 = some ev ∧
      ∀ k, k < (buildCSR beg e xbeg xend row col val remote).nd →
        (mulRemote (buildCSR beg e xbeg xend row col val remote) x y alpha ev).1.getD k 0 =
          y.getD k 0 + alpha * kernelRowSum
            (buildCSR beg e xbeg xend row col val remote).remOff
            (buildCSR beg e xbeg xend row col val remote).remEnt x k) ∧
    ((buildCSR beg e xbeg xend row col val remote).hasRem = true ↔ remote ≠ []) := by
  refine ⟨fun hB => ?_, fun hB => ⟨?_, fun k hk => mulRemote_getD hB hk⟩, ?_⟩
  · unfold mulRemote
    rw [hB]
    simp
  · unfold mulRemote
    rw [hB]
    simp
  · unfold buildCSR
    by_cases hcond : beg = 0 ∧ remote = []
    · rw [if_pos hcond]
      simp [hcond.2]
    · rw [if_neg hcond]
      simp

/-- C7 witness: device 0 of the swap matrix has a nonempty remote block;
`mul_remote` records the supplied wait list and accumulates into `y`. -/
theorem C7_witness :
    (buildCSR 0 1 0 1 swapInp.row swapInp.col swapInp.val [1]).hasRem = true ∧
      (mulRemote (buildCSR 0 1 0 1 swapInp.row swapInp.col swapInp.val [1]) swapX [7] 1
        [(3 : Nat)]).2 = some [3] ∧
      0 < (buildCSR 0 1 0 1 swapInp.row swapInp.col swapInp.val [1]).nd ∧
      (mulRemote (buildCSR 0 1 0 1 swapInp.row swapInp.col swapInp.val [1]) swapX [7] 1
        [(3 : Nat)]).1.getD 0 0 =
        ([(7 : ℚ)]).getD 0 0 + 1 * kernelRowSum
          (buildCSR 0 1 0 1 swapInp.row swapInp.col swapInp.val [1]).remOff
          (buildCSR 0 1 0 1 swapInp.row swapInp.col swapInp.val [1]).remEnt swapX 0 :=
  ⟨by unfold buildCSR; decide,
   ((C7_mul_remote_accumulates 0 1 0 1 swapInp.row swapInp.col swapInp.val [1] swapX [7] 1
      [(3 : Nat)]).2.1 (by unfold buildCSR; decide)).1,
   by unfold buildCSR; decide,
   ((C7_mul_remote_accumulates 0 1 0 1 swapInp.row swapInp.col swapInp.val [1] swapX [7] 1
      [(3 : Nat)]).2.1 (by unfold buildCSR; decide)).2 0 (by unfold buildCSR; decide)⟩

/-- C9 (amended): the renumbering pass's `assert(r2l.count(col[j]))` never
fires when `remote_cols` is the ghost set computed by `setup_exchange`
(with at least two devices, the only situation in which the assert is
reached at all): every column outside the device's partition was collected
into the ghost set by the very same scan, well-formed or not.  Malformed
CSR is therefore not detected — an out-of-range column is absorbed into a
ghost set (or kept silently by the single-device fast path), and
non-monotonic row offsets just make the scanned ranges empty.  In
particular, for every well-formed input the check never fires. -/
theorem C9_assert_never_fires (I : Inp) (hD : 2 ≤ I.D) {d : Nat} (_hd : d < I.D) :
    assertOK (I.part d) (I.part (d + 1)) (I.xpart d) (I.xpart (d + 1)) I.row I.col
      (I.ghost d) = true := by
  unfold assertOK
  rw [List.all_eq_true]
  intro i hi
  rw [List.all_eq_true]
  intro j hj
  rw [List.mem_range'_1] at hi hj
  by_cases hloc : I.xpart d ≤ I.col j ∧ I.col j < I.xpart (d + 1)
  · simp [hloc]
  · have hout : I.col j < I.xpart d ∨ I.xpart (d + 1) ≤ I.col j := by
      simp only [not_and_or, not_le, not_lt] at hloc
      omega
    have hg : I.col j ∈ I.ghost d :=
      (mem_ghost hD).mpr ⟨i, hi.1, by omega, j, hj.1, by omega, rfl, hout⟩
    simp [hg]

/-- C9 counterexample: `oobInp` is malformed (its first nonzero has column 5,
outside `[0, 2)`), its partitions are valid, yet the assertion check passes
on both devices — the out-of-range column was absorbed into device 0's
ghost set, so construction silently builds the matrix instead of failing. -/
theorem C9_counterexample :
    ¬(∀ j < oobInp.row oobInp.n, oobInp.col j < oobInp.m) ∧ oobInp.partsOK ∧
      assertOK (oobInp.part 0) (oobInp.part 1) (oobInp.xpart 0) (oobInp.xpart 1)
        oobInp.row oobInp.col (oobInp.ghost 0) = true ∧
      assertOK (oobInp.part 1) (oobInp.part 2) (oobInp.xpart 1) (oobInp.xpart 2)
        oobInp.row oobInp.col (oobInp.ghost 1) = true := by
  refine ⟨by decide, by unfold Inp.partsOK partOK; decide, ?_, ?_⟩ <;>
    (unfold assertOK Inp.ghost ghostList scanCols setIns insSorted; decide)

/-- C9 witness: the amended theorem applied to the concrete swap matrix. -/
theorem C9_witness :
    2 ≤ swapInp.D ∧ 0 < swapInp.D ∧
      assertOK (swapInp.part 0) (swapInp.part (0 + 1)) (swapInp.xpart 0)
        (swapInp.xpart (0 + 1)) swapInp.row swapInp.col (swapInp.ghost 0) = true :=
  ⟨by decide, by decide, C9_assert_never_fires swapInp (by decide) (by decide)⟩

/-- C10: after the rebase loop, every column stored in device `d`'s
`cols_to_send` buffer is strictly below `xpart (d+1) - xpart d`, the size of
the device's own column partition — so the gather kernel's read
`vals[cols_to_send[i]]` stays inside the device's local slice of the input
vector. -/
theorem C10_send_columns_in_range (I : Inp) (_hwf : csrWF I) (hpOK : I.partsOK)
    {d : Nat} (hd : d < I.D) {k : Nat} (hk : k < (colsToSend I.sendList I.xpart d).length) :
    (colsToSend I.sendList I.xpart d).getD k 0 < I.xpart (d + 1) - I.xpart d := by
  have hs : I.sendList.Sorted (· ≤ ·) := sendList_sortedLE _ _ _ _ _
  have hmono : ∀ e < d + 1, I.xpart e ≤ I.xpart (e + 1) := fun e he => hpOK.2.2.2 e (by omega)
  have hlen := @length_colsToSend I.sendList I.xpart d hs hmono
  have hi : cidx I.sendList I.xpart d + k < cidx I.sendList I.xpart (d + 1) := by omega
  have hcle := @cidx_le_length I.sendList I.xpart (d + 1) hs hmono
  have hval : (colsToSend I.sendList I.xpart d).getD k 0 =
      I.sendList.getD (cidx I.sendList I.xpart d + k) 0 - I.xpart d := by
    rw [List.getD_eq_getElem _ _ hk]
    unfold colsToSend
    rw [List.getElem_map, List.getElem_take, List.getElem_drop,
        List.getD_eq_getElem _ _ (by omega)]
  have hup : I.sendList.getD (cidx I.sendList I.xpart d + k) 0 < I.xpart (d + 1) := by
    refine sorted_getD_lt hs ?_
    rw [← cidx_eq_countP hs hmono]
    exact hi
  have hlo : I.xpart d ≤ I.sendList.getD (cidx I.sendList I.xpart d + k) 0 := by
    refine sorted_le_getD hs ?_ (by omega)
    rw [← cidx_eq_countP hs (fun e he => hmono e (by omega))]
    omega
  rw [hval]
  omega

/-- C10 witness: device 0 of the swap matrix sends one column, rebased to 0,
inside its one-column-wide partition. -/
theorem C10_witness :
    csrWF swapInp ∧ swapInp.partsOK ∧ 0 < swapInp.D ∧
      0 < (colsToSend swapInp.sendList swapInp.xpart 0).length ∧
      (colsToSend swapInp.sendList swapInp.xpart 0).getD 0 0 <
        swapInp.xpart (0 + 1) - swapInp.xpart 0 :=
  ⟨by unfold csrWF; decide, by unfold Inp.partsOK partOK; decide, by decide,
   by unfold colsToSend cidx lowerBound Inp.sendList sendListOf ghostList scanCols setIns
        insSorted; decide,
   C10_send_columns_in_range swapInp (by unfold csrWF; decide)
     (by unfold Inp.partsOK partOK; decide) (by decide)
     (by unfold colsToSend cidx lowerBound Inp.sendList sendListOf ghostList scanCols setIns
          insSorted; decide)⟩

/-- C8 (amended): with exactly one device, `setup_exchange` leaves every
ghost set empty and allocates nothing (empty send list, empty `rx`, empty
`cols_to_recv`), and every `mul` call skips the whole exchange path,
degenerating to the single local pass; and the single-device result agrees
with the multi-device result on the same matrix and vector, provided the
multi-device partition satisfies the fast-path consistency condition
(`fastOK`, without which the multi-device run mis-reads `x`, see the C1
counterexample). -/
theorem C8_single_device_degenerates (I1 J : Inp) (hD1 : I1.D = 1) (hI1p : I1.partsOK)
    (hn : I1.n = J.n) (hm : I1.m = J.m) (hrow : I1.row = J.row) (hcol : I1.col = J.col)
    (hval : I1.val = J.val)
    (hwf : csrWF J) (hpOK : J.partsOK) (hfast : fastOK J) :
    (∀ d, I1.ghost d = []) ∧
    I1.sendList = [] ∧
    (∀ x, I1.rx x = []) ∧
    (∀ d, I1.colsToRecv d = []) ∧
    (∀ (x : Nat → ℚ) (y0 : List ℚ) (alpha : ℚ) (app : Bool) (d : Nat),
      I1.deviceMul x y0 alpha app d = I1.localPass x y0 alpha app d) ∧
    (∀ (x : Nat → ℚ) (alpha : ℚ) (y1 yd : List ℚ), y1.length = I1.n →
      ∀ d, d < J.D → yd.length = J.part (d + 1) - J.part d →
        ∀ k, k < J.part (d + 1) - J.part d →
          (J.deviceMul x yd alpha false d).getD k 0 =
            (I1.deviceMul x y1 alpha false 0).getD (J.part d + k) 0) := by
  have hg : ∀ d, I1.ghost d = [] := by
    intro d
    unfold Inp.ghost ghostList
    rw [if_pos (by omega)]
  have hsend : I1.sendList = [] := by
    unfold Inp.sendList sendListOf
    rw [hD1, show List.range 1 = [0] from rfl, List.foldl_cons, List.foldl_nil]
    have h0 : ghostList 1 I1.part I1.xpart I1.row I1.col 0 = [] := by
      unfold ghostList
      rw [if_pos (le_refl 1)]
    rw [h0]
    rfl
  have hrxnil : ∀ x, I1.rx x = [] := by
    intro x
    unfold Inp.rx
    rw [hsend]
    have hcs : ∀ d, colsToSend ([] : List Nat) I1.xpart d = [] := by
      intro d
      unfold colsToSend
      simp
    simp [hcs]
  have hrecv : ∀ d, I1.colsToRecv d = [] := by
    intro d
    unfold Inp.colsToRecv
    rw [hsend]
    rfl
  have hdm : ∀ (x : Nat → ℚ) (y0 : List ℚ) (alpha : ℚ) (app : Bool) (d : Nat),
      I1.deviceMul x y0 alpha app d = I1.localPass x y0 alpha app d := by
    intro x y0 alpha app d
    unfold Inp.deviceMul
    rw [if_neg (by rw [hsend]; simp)]
  refine ⟨hg, hsend, hrxnil, hrecv, hdm, ?_⟩
  intro x alpha y1 yd hy1 d hd hyd k hk
  have hwf1 : csrWF I1 := by
    unfold csrWF
    rw [hn, hm, hrow, hcol]
    exact hwf
  have hfast1 : fastOK I1 := by
    intro d' hd' h1 h2 h3
    have hd0 : d' = 0 := by omega
    subst hd0
    exact hI1p.2.1
  have hpart1 : I1.part 1 = I1.n := by
    have := hI1p.1.2.1
    rw [hD1] at this
    exact this
  have hJtop : J.part (d + 1) ≤ J.n := by
    have := chain_le hpOK.1.2.2 (d + 1) J.D (by omega) (le_refl _)
    rw [hpOK.1.2.1] at this
    exact this
  have hkn : J.part d + k < I1.part (0 + 1) - I1.part 0 := by
    have h00 := hI1p.1.1
    simp only [Nat.zero_add]
    rw [hpart1, hn]
    omega
  have h1spec := @deviceMul_spec I1 hwf1 hI1p hfast1 x alpha false 0 (by omega)
    y1 (by simp only [Nat.zero_add]; rw [hpart1, hI1p.1.1]; omega)
    (J.part d + k) hkn
  have hJspec := deviceMul_spec J hwf hpOK hfast x alpha false hd hyd k hk
  rw [hJspec, h1spec]
  simp only [Bool.false_eq_true, if_false]
  rw [hrow, hcol, hval, hI1p.1.1, Nat.zero_add]

/-- C8 counterexample: on the same 1×2 matrix and the same input vector, the
single-device result (`oneInp`) differs from the two-device result
(`badInp`, whose partitions are valid partitioner outputs): the claim's
final clause fails because the two-device run hits the fast-path slip. -/
theorem C8_counterexample :
    csrWF oneInp ∧ oneInp.partsOK ∧ csrWF badInp ∧ badInp.partsOK ∧
      oneInp.D = 1 ∧ badInp.D = 2 ∧
      oneInp.row = badInp.row ∧ oneInp.col = badInp.col ∧ oneInp.val = badInp.val ∧
      ¬((oneInp.deviceMul swapX [0] 1 false 0).getD 0 0 =
        (badInp.deviceMul swapX [0] 1 false 1).getD 0 0) := by
  refine ⟨by unfold csrWF; decide, by unfold Inp.partsOK partOK; decide,
    by unfold csrWF; decide, by unfold Inp.partsOK partOK; decide,
    by decide, by decide, rfl, rfl, rfl, ?_⟩
  norm_num [Inp.deviceMul, Inp.localPass, Inp.block, buildCSR, Inp.ghost, ghostList, scanCols,
    setIns, insSorted, Inp.sendList, sendListOf, Inp.colsToRecv, colsToRecvAux, mulLocal,
    mulRemote, kernelRowSum, Inp.xSlice, swapX, badInp, oneInp, List.range', packedOff, packed,
    localPart, remotePart, rowEntries, cidx, lowerBound, colsToSend, entSum, refRowSum,
    Inp.rx, Inp.valsToRecv]

/-- C8 witness: the amended theorem applied to the swap matrix on one device
versus two devices. -/
theorem C8_witness :
    swapOne.D = 1 ∧ swapOne.partsOK ∧ csrWF swapInp ∧ swapInp.partsOK ∧ fastOK swapInp ∧
      swapOne.sendList = [] ∧
      (swapInp.deviceMul swapX [37] 1 false 0).getD 0 0 =
        (swapOne.deviceMul swapX [37, 41] 1 false 0).getD (swapInp.part 0 + 0) 0 :=
  ⟨by decide, by unfold Inp.partsOK partOK; decide, by unfold csrWF; decide,
   by unfold Inp.partsOK partOK; decide,
   by unfold fastOK Inp.ghost ghostList scanCols setIns insSorted; decide,
   (C8_single_device_degenerates swapOne swapInp (by decide)
      (by unfold Inp.partsOK partOK; decide) rfl rfl rfl rfl rfl
      (by unfold csrWF; decide) (by unfold Inp.partsOK partOK; decide)
      (by unfold fastOK Inp.ghost ghostList scanCols setIns insSorted; decide)).2.1,
   (C8_single_device_degenerates swapOne swapInp (by decide)
      (by unfold Inp.partsOK partOK; decide) rfl rfl rfl rfl rfl
      (by unfold csrWF; decide) (by unfold Inp.partsOK partOK; decide)
      (by unfold fastOK Inp.ghost ghostList scanCols setIns insSorted; decide)).2.2.2.2.2
      swapX 1 [37, 41] [37] (by decide) 0 (by decide) (by decide) 0 (by decide)⟩

end Claims

end VexSp
